import Mathlib

/-!
Verification development for the distance-vector routing simulator
(`src/src/distancevector.cpp`).  The data model (Link, Message, RoutingTable,
Router) and the operations the claims are about (getRouterByID, removeLink,
the topology seeding shared by initTopology and applyChange, applyChange,
doBellmanFordAlg, and the per-message part of sendMessages) are shallowly
embedded as executable Lean functions.  `std::map<int, std::pair<int,int>>`
is modelled as a key-sorted association list, `std::set<int>` as a sorted
duplicate-free list, exceptions as `Option`/dedicated result constructors,
and the unbounded `while (updated)` loop via an explicit fuel parameter
(`BFResult.fuelOut` meaning "still running after that many sweeps").
-/

namespace DV

/-- A link record: two endpoints and a cost (`struct Link`). -/
structure Link where
  node1 : Int
  node2 : Int
  pathCost : Int
deriving DecidableEq, Repr

/-- A message record (`struct Message`). -/
structure Message where
  sourceID : Int
  destinationID : Int
  message : String
deriving DecidableEq, Repr

/-- A routing table: association list destination ↦ (nextHop, cost), kept
sorted by destination key, mirroring `std::map<int, std::pair<int,int>>`. -/
abbrev Table := List (Int × Int × Int)

/-- Insert-or-assign into the sorted association list, mirroring
`table[destinationID] = std::make_pair(nextHopID, pathCost)`. -/
def mapInsert (k h c : Int) : Table → Table
  | [] => [(k, h, c)]
  | (k1, h1, c1) :: t =>
    if k < k1 then (k, h, c) :: (k1, h1, c1) :: t
    else if k = k1 then (k, h, c) :: t
    else (k1, h1, c1) :: mapInsert k h c t

/-- Exact-key lookup, mirroring `table.find` / `table.at`. -/
def mapFind (k : Int) : Table → Option (Int × Int)
  | [] => none
  | (k1, h1, c1) :: t => if k = k1 then some (h1, c1) else mapFind k t

/-- The RoutingTable constructor: one entry per known node, self ↦ (self, 0),
every other id ↦ (-1, 9999). -/
def initTable (myID : Int) (nodes : List Int) : Table :=
  nodes.foldl
    (fun t id => if id = myID then mapInsert id id 0 t else mapInsert id (-1) 9999 t) []

/-- A router: identity plus its owned routing table (`class Router` wrapping
`class RoutingTable`). -/
structure Router where
  ID : Int
  table : Table
deriving DecidableEq, Repr

/-- `Router(id, nodes)`: fresh self-seeded table. -/
def Router.mk0 (id : Int) (nodes : List Int) : Router :=
  ⟨id, initTable id nodes⟩

/-- `RoutingTable::addRoute`, forwarded by `Router::addRoute`. -/
def Router.addRoute (r : Router) (dest hop cost : Int) : Router :=
  ⟨r.ID, mapInsert dest hop cost r.table⟩

/-- `RoutingTable::getNextHop`: entry's next hop, or -1 when absent. -/
def Router.getNextHop (r : Router) (dest : Int) : Int :=
  match mapFind dest r.table with
  | some p => p.1
  | none => -1

/-- `RoutingTable::getPathCost`: entry's cost, or -1 when absent. -/
def Router.getPathCost (r : Router) (dest : Int) : Int :=
  match mapFind dest r.table with
  | some p => p.2
  | none => -1

/-- `getRouterByID`: linear scan for the first router with the given id;
`none` models the thrown `std::runtime_error`. -/
def getRouterByID (routers : List Router) (id : Int) : Option Router :=
  routers.find? (fun r => r.ID == id)

/-- `removeLink`: erase every link matching the pair in either orientation. -/
def removeLink (links : List Link) (c : Link) : List Link :=
  links.filter (fun l =>
    !((l.node1 == c.node1 && l.node2 == c.node2) ||
      (l.node1 == c.node2 && l.node2 == c.node1)))

/-- `std::set<int>::insert` on the sorted duplicate-free node-id list. -/
def setInsert (n : Int) : List Int → List Int
  | [] => [n]
  | m :: t => if n < m then n :: m :: t else if n = m then m :: t else m :: setInsert n t

/-- Positional lookup in the router vector. -/
def nth : List Router → Nat → Option Router
  | [], _ => none
  | r :: _, 0 => some r
  | _ :: rs, n + 1 => nth rs n

/-- Positional in-place update of the router vector. -/
def setNth : List Router → Nat → Router → List Router
  | [], _, _ => []
  | _ :: rs, 0, r1 => r1 :: rs
  | r :: rs, n + 1, r1 => r :: setNth rs n r1

/-- In-place mutation through the reference returned by `getRouterByID`:
apply `f` to the first router whose id matches; `none` models the throw. -/
def updateFirst (id : Int) (f : Router → Router) : List Router → Option (List Router)
  | [] => none
  | r :: rs =>
    if r.ID = id then some (f r :: rs)
    else (updateFirst id f rs).map (r :: ·)

/-- Direct-route seeding of one link on both endpoints
(`getRouterByID(routers, link.node1).addRoute(link.node2, link.node2, cost)`
and symmetrically). -/
def seedLink (routers : List Router) (lk : Link) : Option (List Router) :=
  match updateFirst lk.node1 (fun r => r.addRoute lk.node2 lk.node2 lk.pathCost) routers with
  | none => none
  | some rs => updateFirst lk.node2 (fun r => r.addRoute lk.node1 lk.node1 lk.pathCost) rs

/-- Direct-route seeding of a whole link list, in order. -/
def seedLinks (routers : List Router) : List Link → Option (List Router)
  | [] => some routers
  | lk :: ls =>
    match seedLink routers lk with
    | none => none
    | some rs => seedLinks rs ls

/-- The router-collection (re)build shared by `initTopology` and
`applyChange`: one fresh self-seeded router per node id, then every link
applied as a direct route on both endpoints. -/
def buildRouters (nodes : List Int) (links : List Link) : Option (List Router) :=
  seedLinks (nodes.map (fun id => Router.mk0 id nodes)) links

/-- `applyChange`: insert both endpoints into the node set, remove the link
on the -999 sentinel or append the change record otherwise, then discard and
rebuild the whole router collection.  The pre-change `routers` argument is
cleared unread (`routers.clear()`). -/
def applyChange (change : Link) (routers : List Router) (nodes : List Int)
    (links : List Link) : Option (List Router × List Int × List Link) :=
  let nodes1 := setInsert change.node2 (setInsert change.node1 nodes)
  let links1 := if change.pathCost = -999 then removeLink links change else links ++ [change]
  match buildRouters nodes1 links1 with
  | none => none
  | some rs => some (rs, nodes1, links1)

/-- Scan state of the inner link loop of `doBellmanFordAlg`:
(router vector, curPathCost, newNextHop, updated). -/
abbrev ScanSt := List Router × Int × Int × Bool

/-- The `neighbourID` computation of the inner loop: the other endpoint of a
link incident to the router, or -1 for an unrelated link. -/
def neighbourOf (lk : Link) (rid : Int) : Int :=
  if lk.node1 = rid then lk.node2
  else if lk.node2 = rid then lk.node1
  else -1

/-- Body of the inner `for (const auto &link : links)` loop of
`doBellmanFordAlg`, for the router at position `i` and destination `dest`. -/
def relaxLink (i : Nat) (dest : Int) (lk : Link) (st : ScanSt) : Option ScanSt :=
  match nth st.1 i with
  | none => none
  | some router =>
    let nb : Int := neighbourOf lk router.ID
    if nb = -1 ∨ nb = dest then some st
    else
      match getRouterByID st.1 nb with
      | none => none
      | some nbr =>
        if nbr.getNextHop dest = router.ID then some st
        else
          let cand := router.getPathCost nb + nbr.getPathCost dest
          if cand < st.2.1 ∨ (cand = st.2.1 ∧ nb < st.2.2.1) then
            some (setNth st.1 i (router.addRoute dest nb cand), cand, nb, true)
          else some st

/-- The inner link loop: fold `relaxLink` over the link list. -/
def scanLinks (i : Nat) (dest : Int) : List Link → ScanSt → Option ScanSt
  | [], st => some st
  | lk :: ls, st =>
    match relaxLink i dest lk st with
    | none => none
    | some st1 => scanLinks i dest ls st1

/-- One destination of the middle loop: read `curPathCost`, reset
`newNextHop` to -1, then scan all links. -/
def scanDest (i : Nat) (dest : Int) (links : List Link) (routers : List Router)
    (upd : Bool) : Option (List Router × Bool) :=
  match nth routers i with
  | none => none
  | some router =>
    match scanLinks i dest links (routers, router.getPathCost dest, -1, upd) with
    | none => none
    | some (rs, _, _, u) => some (rs, u)

/-- The middle `for (const int &destinationID : nodes)` loop. -/
def scanDests (i : Nat) (links : List Link) : List Int → List Router → Bool →
    Option (List Router × Bool)
  | [], routers, upd => some (routers, upd)
  | d :: ds, routers, upd =>
    match scanDest i d links routers upd with
    | none => none
    | some (rs, u) => scanDests i links ds rs u

/-- The outer `for (auto &router : routers)` loop, by position. -/
def sweepFrom (nodes : List Int) (links : List Link) : List Nat → List Router → Bool →
    Option (List Router × Bool)
  | [], routers, upd => some (routers, upd)
  | i :: is, routers, upd =>
    match scanDests i links nodes routers upd with
    | none => none
    | some (rs, u) => sweepFrom nodes links is rs u

/-- One full pass of the `while (updated)` loop body, starting with
`updated = false`. -/
def sweepOnce (nodes : List Int) (links : List Link) (routers : List Router) :
    Option (List Router × Bool) :=
  sweepFrom nodes links (List.range routers.length) routers false

/-- Outcome of a `doBellmanFordAlg` run: converged router vector, thrown
exception, or fuel exhausted (the C++ loop would still be running). -/
inductive BFResult where
  | ok (routers : List Router)
  | exn
  | fuelOut
deriving DecidableEq, Repr

/-- `doBellmanFordAlg`: repeat full sweeps until one makes no update.  The
fuel bounds how many sweeps we are willing to unfold; the C++ code applies
no such cap, so `fuelOut` means the loop is still running at that depth. -/
def doBellmanFordAlg (fuel : Nat) (routers : List Router) (nodes : List Int)
    (links : List Link) : BFResult :=
  match fuel with
  | 0 => .fuelOut
  | f + 1 =>
    match sweepOnce nodes links routers with
    | none => .exn
    | some (rs, true) => doBellmanFordAlg f rs nodes links
    | some (rs, false) => .ok rs

/-- Outcome of routing one message in `sendMessages`. -/
inductive SendResult where
  | unreachable
  | delivered (hops : List Int)
  | exn
  | fuelOut
deriving DecidableEq, Repr

/-- The hop walk of `sendMessages`: emit the current node and follow
next hops until the destination is reached; a failed router lookup is the
thrown exception; fuel exhaustion means the walk is still looping. -/
def hopWalk (routers : List Router) (dest : Int) : Nat → Int → List Int → SendResult
  | 0, _, _ => .fuelOut
  | f + 1, current, acc =>
    if current = dest then .delivered acc.reverse
    else
      match getRouterByID routers current with
      | none => .exn
      | some r => hopWalk routers dest f (r.getNextHop dest) (current :: acc)

/-- Per-message body of `sendMessages`: look up the source router's cost to
the destination; report unreachable on the 9999 sentinel, otherwise walk the
hop chain. -/
def routeMessage (routers : List Router) (msg : Message) (fuel : Nat) : SendResult :=
  match getRouterByID routers msg.sourceID with
  | none => .exn
  | some src =>
    if src.getPathCost msg.destinationID = 9999 then .unreachable
    else hopWalk routers msg.destinationID fuel msg.sourceID []

/-- Keys of a routing table, in storage order. -/
def tableKeys (t : Table) : List Int := t.map (fun e => e.1)

/-- Sum of the (truncated-to-Nat) costs stored in a table. -/
def tableMeasure (t : Table) : Nat := (t.map (fun e => e.2.2.toNat)).sum

/-- Sum of all table measures of a router vector; the termination measure of
the convergence loop. -/
def routersMeasure (rs : List Router) : Nat := (rs.map (fun r => tableMeasure r.table)).sum

/-- Well-formedness of one routing table relative to the node set: keys
strictly sorted (as `std::map` guarantees), every node id present, and all
stored costs non-negative. -/
def TableOK (nodes : List Int) (t : Table) : Prop :=
  List.Pairwise (· < ·) (tableKeys t) ∧
  (∀ n ∈ nodes, (mapFind n t).isSome = true) ∧
  (∀ e ∈ t, 0 ≤ e.2.2)

instance (nodes : List Int) (t : Table) : Decidable (TableOK nodes t) := by
  unfold TableOK; infer_instance

/-- Well-formedness of a convergence state: non-negative node ids, links
with endpoints in the node set and non-negative costs, well-formed tables,
and one router per node id in node-set order (as both seeding paths build). -/
def WF (routers : List Router) (nodes : List Int) (links : List Link) : Prop :=
  (∀ n ∈ nodes, 0 ≤ n) ∧
  (∀ l ∈ links, l.node1 ∈ nodes ∧ l.node2 ∈ nodes ∧ 0 ≤ l.pathCost) ∧
  (∀ r ∈ routers, TableOK nodes r.table) ∧
  routers.map (fun r => r.ID) = nodes

instance (routers : List Router) (nodes : List Int) (links : List Link) :
    Decidable (WF routers nodes links) := by
  unfold WF; infer_instance

/-- Every router's entry for its own id is (self, 0). -/
def SelfOK (rs : List Router) : Prop :=
  ∀ r ∈ rs, mapFind r.ID r.table = some (r.ID, 0)

instance (rs : List Router) : Decidable (SelfOK rs) := by
  unfold SelfOK; infer_instance

/-- Claim C1's reading of the inner loop body: the candidate cost is the
direct cost of the scanned link plus the neighbour's current cost to the
destination, and the route is adopted exactly when the candidate is strictly
below the current best.  Kept for comparison with `relaxLink`, which is the
code's actual body. -/
def relaxLinkClaim (i : Nat) (dest : Int) (lk : Link) (st : ScanSt) : Option ScanSt :=
  match nth st.1 i with
  | none => none
  | some router =>
    let nb : Int := neighbourOf lk router.ID
    if nb = -1 ∨ nb = dest then some st
    else
      match getRouterByID st.1 nb with
      | none => none
      | some nbr =>
        if nbr.getNextHop dest = router.ID then some st
        else
          let cand := lk.pathCost + nbr.getPathCost dest
          if cand < st.2.1 then
            some (setNth st.1 i (router.addRoute dest nb cand), cand, nb, true)
          else some st

/-! ### Basic lemmas on the association-list map -/

theorem mapFind_mapInsert_self (k h c : Int) (t : Table) :
    mapFind k (mapInsert k h c t) = some (h, c) := by
  induction t with
  | nil => simp [mapInsert, mapFind]
  | cons e t ih =>
    obtain ⟨k1, h1, c1⟩ := e
    by_cases hlt : k < k1
    · simp [mapInsert, hlt, mapFind]
    · by_cases heq : k = k1
      · simp [mapInsert, hlt, heq, mapFind]
      · simp [mapInsert, hlt, heq, mapFind, ih]

theorem mapFind_mapInsert_ne (k k1 h c : Int) (t : Table) (hne : k1 ≠ k) :
    mapFind k1 (mapInsert k h c t) = mapFind k1 t := by
  induction t with
  | nil => simp [mapInsert, mapFind, hne]
  | cons e t ih =>
    obtain ⟨k2, h2, c2⟩ := e
    by_cases hlt : k < k2
    · simp [mapInsert, hlt, mapFind, hne]
    · by_cases heq : k = k2
      · subst heq; simp [mapInsert, hlt, mapFind, hne]
      · simp [mapInsert, hlt, heq, mapFind, ih]

theorem mapFind_isSome_mapInsert (k k1 h c : Int) (t : Table)
    (hs : (mapFind k1 t).isSome = true) :
    (mapFind k1 (mapInsert k h c t)).isSome = true := by
  by_cases heq : k1 = k
  · subst heq; rw [mapFind_mapInsert_self]; rfl
  · rw [mapFind_mapInsert_ne k k1 h c t heq]; exact hs

theorem mem_mapInsert (k kh kc : Int) (t : Table) (e : Int × Int × Int)
    (he : e ∈ mapInsert k kh kc t) : e = (k, kh, kc) ∨ e ∈ t := by
  induction t with
  | nil => simpa [mapInsert] using he
  | cons e1 t ih =>
    obtain ⟨k2, h2, c2⟩ := e1
    by_cases hlt : k < k2
    · simp only [mapInsert, if_pos hlt, List.mem_cons] at he
      rcases he with ha | ha | ha
      · exact Or.inl ha
      · exact Or.inr (by simp [ha])
      · exact Or.inr (by simp [ha])
    · by_cases heq : k = k2
      · simp only [mapInsert, if_neg hlt, if_pos heq, List.mem_cons] at he
        rcases he with ha | ha
        · exact Or.inl ha
        · exact Or.inr (by simp [ha])
      · simp only [mapInsert, if_neg hlt, if_neg heq, List.mem_cons] at he
        rcases he with ha | ha
        · exact Or.inr (by simp [ha])
        · rcases ih ha with hb | hb
          · exact Or.inl hb
          · exact Or.inr (by simp [hb])

theorem mapFind_some_mem (k : Int) (t : Table) (kh kc : Int)
    (hf : mapFind k t = some (kh, kc)) : (k, kh, kc) ∈ t := by
  induction t with
  | nil => simp [mapFind] at hf
  | cons e t ih =>
    obtain ⟨k1, h1, c1⟩ := e
    by_cases heq : k = k1
    · simp only [mapFind, if_pos heq, Option.some.injEq, Prod.mk.injEq] at hf
      obtain ⟨hh, hc⟩ := hf
      subst heq; simp [← hh, ← hc]
    · simp only [mapFind, if_neg heq] at hf
      exact List.mem_cons_of_mem _ (ih hf)

theorem mapFind_some_key_mem (k : Int) (t : Table) (p : Int × Int)
    (hf : mapFind k t = some p) : k ∈ tableKeys t := by
  obtain ⟨kh, kc⟩ := p
  have := mapFind_some_mem k t kh kc hf
  exact List.mem_map.mpr ⟨(k, kh, kc), this, rfl⟩

theorem tableKeys_mapInsert_sub (k kh kc : Int) (t : Table) :
    ∀ x ∈ tableKeys (mapInsert k kh kc t), x = k ∨ x ∈ tableKeys t := by
  intro x hx
  obtain ⟨e, he, hex⟩ := List.mem_map.mp hx
  rcases mem_mapInsert k kh kc t e he with ha | ha
  · subst ha; exact Or.inl hex.symm
  · exact Or.inr (List.mem_map.mpr ⟨e, ha, hex⟩)

theorem pairwise_mapInsert (k kh kc : Int) (t : Table)
    (hp : List.Pairwise (· < ·) (tableKeys t)) :
    List.Pairwise (· < ·) (tableKeys (mapInsert k kh kc t)) := by
  induction t with
  | nil => simp [mapInsert, tableKeys]
  | cons e t ih =>
    obtain ⟨k1, h1, c1⟩ := e
    simp only [tableKeys, List.map_cons, List.pairwise_cons] at hp
    obtain ⟨hhead, htail⟩ := hp
    by_cases hlt : k < k1
    · simp only [mapInsert, if_pos hlt, tableKeys, List.map_cons, List.pairwise_cons]
      refine ⟨?_, ?_, htail⟩
      · intro x hx
        rcases List.mem_cons.mp hx with ha | ha
        · omega
        · have := hhead x (by simpa [tableKeys] using ha)
          omega
      · intro x hx; exact hhead x (by simpa [tableKeys] using hx)
    · by_cases heq : k = k1
      · simp only [mapInsert, if_neg hlt, if_pos heq, tableKeys, List.map_cons,
          List.pairwise_cons]
        refine ⟨?_, htail⟩
        intro x hx
        have := hhead x (by simpa [tableKeys] using hx)
        omega
      · simp only [mapInsert, if_neg hlt, if_neg heq, tableKeys, List.map_cons,
          List.pairwise_cons]
        refine ⟨?_, ?_⟩
        · intro x hx
          rcases tableKeys_mapInsert_sub k kh kc t x (by simpa [tableKeys] using hx) with
            hb | hb
          · subst hb; omega
          · exact hhead x hb
        · exact ih htail

theorem tableMeasure_mapInsert (k kh kc h0 c0 : Int) (t : Table)
    (hp : List.Pairwise (· < ·) (tableKeys t))
    (hf : mapFind k t = some (h0, c0)) :
    tableMeasure (mapInsert k kh kc t) + c0.toNat = tableMeasure t + kc.toNat := by
  induction t with
  | nil => simp [mapFind] at hf
  | cons e t ih =>
    obtain ⟨k1, h1, c1⟩ := e
    simp only [tableKeys, List.map_cons, List.pairwise_cons] at hp
    obtain ⟨hhead, htail⟩ := hp
    by_cases heq : k = k1
    · simp only [mapFind, if_pos heq, Option.some.injEq, Prod.mk.injEq] at hf
      obtain ⟨hh, hc⟩ := hf
      have hlt : ¬ k < k1 := by omega
      simp only [mapInsert, if_neg hlt, if_pos heq, tableMeasure, List.map_cons,
        List.sum_cons]
      subst hc
      omega
    · simp only [mapFind, if_neg heq] at hf
      have hk : k ∈ tableKeys t := mapFind_some_key_mem k t (h0, c0) hf
      have hlt : ¬ k < k1 := by
        intro hlt
        have := hhead k hk
        omega
      simp only [mapInsert, if_neg hlt, if_neg heq, tableMeasure, List.map_cons,
        List.sum_cons]
      have := ih htail hf
      simp only [tableMeasure] at this
      omega

/-! ### Basic lemmas on positional access to the router vector -/

theorem nth_mem (rs : List Router) (i : Nat) (r : Router) (h : nth rs i = some r) :
    r ∈ rs := by
  induction rs generalizing i with
  | nil => simp [nth] at h
  | cons r1 rs ih =>
    cases i with
    | zero => simp only [nth, Option.some.injEq] at h; simp [h]
    | succ i => exact List.mem_cons_of_mem _ (ih i h)

theorem nth_isSome_of_lt (rs : List Router) (i : Nat) (h : i < rs.length) :
    ∃ r, nth rs i = some r := by
  induction rs generalizing i with
  | nil => simp at h
  | cons r1 rs ih =>
    cases i with
    | zero => exact ⟨r1, rfl⟩
    | succ i => exact ih i (by simpa using h)

theorem length_setNth (rs : List Router) (i : Nat) (r : Router) :
    (setNth rs i r).length = rs.length := by
  induction rs generalizing i with
  | nil => rfl
  | cons r1 rs ih =>
    cases i with
    | zero => rfl
    | succ i => simp [setNth, ih i]

theorem nth_setNth_self (rs : List Router) (i : Nat) (r r0 : Router)
    (h : nth rs i = some r0) : nth (setNth rs i r) i = some r := by
  induction rs generalizing i with
  | nil => simp [nth] at h
  | cons r1 rs ih =>
    cases i with
    | zero => rfl
    | succ i => exact ih i h

theorem mem_setNth (rs : List Router) (i : Nat) (r x : Router)
    (h : x ∈ setNth rs i r) : x = r ∨ x ∈ rs := by
  induction rs generalizing i with
  | nil => simp [setNth] at h
  | cons r1 rs ih =>
    cases i with
    | zero =>
      rcases List.mem_cons.mp h with ha | ha
      · exact Or.inl ha
      · exact Or.inr (List.mem_cons_of_mem _ ha)
    | succ i =>
      rcases List.mem_cons.mp h with ha | ha
      · exact Or.inr (by simp [ha])
      · rcases ih i ha with hb | hb
        · exact Or.inl hb
        · exact Or.inr (List.mem_cons_of_mem _ hb)

theorem map_ID_setNth (rs : List Router) (i : Nat) (r r0 : Router)
    (h : nth rs i = some r0) (hid : r.ID = r0.ID) :
    (setNth rs i r).map (fun x => x.ID) = rs.map (fun x => x.ID) := by
  induction rs generalizing i with
  | nil => simp [nth] at h
  | cons r1 rs ih =>
    cases i with
    | zero =>
      simp only [nth, Option.some.injEq] at h
      subst h
      simp [setNth, hid]
    | succ i => simp [setNth, ih i h]

theorem routersMeasure_setNth (rs : List Router) (i : Nat) (r r0 : Router)
    (h : nth rs i = some r0) :
    routersMeasure (setNth rs i r) + tableMeasure r0.table =
      routersMeasure rs + tableMeasure r.table := by
  induction rs generalizing i with
  | nil => simp [nth] at h
  | cons r1 rs ih =>
    cases i with
    | zero =>
      simp only [nth, Option.some.injEq] at h
      subst h
      simp only [setNth, routersMeasure, List.map_cons, List.sum_cons]
      omega
    | succ i =>
      simp only [setNth, routersMeasure, List.map_cons, List.sum_cons]
      have := ih i h
      simp only [routersMeasure] at this
      omega

/-! ### Basic lemmas on router lookup by id -/

theorem getRouterByID_some_props (rs : List Router) (id : Int) (r : Router)
    (h : getRouterByID rs id = some r) : r.ID = id ∧ r ∈ rs := by
  induction rs with
  | nil => simp [getRouterByID] at h
  | cons r1 rs ih =>
    by_cases heq : r1.ID = id
    · simp only [getRouterByID, List.find?, heq] at h
      simp only [beq_self_eq_true, Option.some.injEq] at h
      subst h
      exact ⟨heq, by simp⟩
    · simp only [getRouterByID, List.find?] at h
      rw [show (r1.ID == id) = false by simpa using heq] at h
      obtain ⟨h1, h2⟩ := ih h
      exact ⟨h1, List.mem_cons_of_mem _ h2⟩

theorem getRouterByID_some_of_mem (rs : List Router) (id : Int)
    (h : id ∈ rs.map (fun r => r.ID)) :
    ∃ r, getRouterByID rs id = some r ∧ r.ID = id ∧ r ∈ rs := by
  induction rs with
  | nil => simp at h
  | cons r1 rs ih =>
    by_cases heq : r1.ID = id
    · refine ⟨r1, ?_, heq, by simp⟩
      simp [getRouterByID, List.find?, heq]
    · simp only [List.map_cons, List.mem_cons] at h
      rcases h with h | h
      · exact absurd h.symm heq
      · obtain ⟨r, hr, hid, hmem⟩ := ih h
        refine ⟨r, ?_, hid, List.mem_cons_of_mem _ hmem⟩
        simp only [getRouterByID, List.find?]
        rw [show (r1.ID == id) = false by simpa using heq]
        exact hr

theorem getRouterByID_none_of_not_mem (rs : List Router) (id : Int)
    (h : id ∉ rs.map (fun r => r.ID)) : getRouterByID rs id = none := by
  induction rs with
  | nil => rfl
  | cons r1 rs ih =>
    simp only [List.map_cons, List.mem_cons, not_or] at h
    simp only [getRouterByID, List.find?]
    rw [show (r1.ID == id) = false by simpa using fun e => h.1 e.symm]
    exact ih h.2

/-! ### The inner relaxation step: invariant preservation and measure -/

theorem neighbourOf_cases (lk : Link) (rid : Int) (h : neighbourOf lk rid ≠ -1) :
    neighbourOf lk rid = lk.node1 ∨ neighbourOf lk rid = lk.node2 := by
  unfold neighbourOf at *
  by_cases h1 : lk.node1 = rid
  · simp [h1]
  · by_cases h2 : lk.node2 = rid
    · simp [h1, h2]
    · simp [h1, h2] at h

theorem relaxLink_run
    (nodes : List Int) (links : List Link) (routers : List Router)
    (cur hop : Int) (upd : Bool) (i : Nat) (dest : Int) (lk : Link) (router : Router)
    (hp0 : Int)
    (hWF : WF routers nodes links) (hlk : lk ∈ links)
    (hr : nth routers i = some router)
    (hEC : mapFind dest router.table = some (hp0, cur))
    (hdest : dest ∈ nodes) :
    ∃ R1 rt1 hp1 c1 h1 u1,
      relaxLink i dest lk (routers, cur, hop, upd) = some (R1, c1, h1, u1) ∧
      WF R1 nodes links ∧
      nth R1 i = some rt1 ∧ rt1.ID = router.ID ∧
      mapFind dest rt1.table = some (hp1, c1) ∧
      0 ≤ c1 ∧ c1 ≤ cur ∧ 0 ≤ cur ∧
      routersMeasure R1 + cur.toNat = routersMeasure routers + c1.toNat ∧
      (((R1, c1, h1, u1) : ScanSt) = (routers, cur, hop, upd) ∨
        (u1 = true ∧ (hop = -1 → c1 < cur))) := by
  have hmem : router ∈ routers := nth_mem routers i router hr
  have hTOK : TableOK nodes router.table := hWF.2.2.1 router hmem
  have hcur0 : 0 ≤ cur := hTOK.2.2 (dest, hp0, cur) (mapFind_some_mem dest _ hp0 cur hEC)
  by_cases hskip : neighbourOf lk router.ID = -1 ∨ neighbourOf lk router.ID = dest
  · refine ⟨routers, router, hp0, cur, hop, upd, ?_, hWF, hr, rfl, hEC, hcur0,
      le_refl _, hcur0, rfl, Or.inl rfl⟩
    simp [relaxLink, hr, hskip]
  · push_neg at hskip
    obtain ⟨hnb1, hnbd⟩ := hskip
    have hnbmem : neighbourOf lk router.ID ∈ nodes := by
      rcases neighbourOf_cases lk router.ID hnb1 with ha | ha
      · rw [ha]; exact (hWF.2.1 lk hlk).1
      · rw [ha]; exact (hWF.2.1 lk hlk).2.1
    have hnb0 : 0 ≤ neighbourOf lk router.ID := hWF.1 _ hnbmem
    obtain ⟨nbr, hnbr, hnbrID, hnbrmem⟩ :=
      getRouterByID_some_of_mem routers (neighbourOf lk router.ID)
        (by rw [hWF.2.2.2]; exact hnbmem)
    by_cases hsh : nbr.getNextHop dest = router.ID
    · refine ⟨routers, router, hp0, cur, hop, upd, ?_, hWF, hr, rfl, hEC, hcur0,
        le_refl _, hcur0, rfl, Or.inl rfl⟩
      simp [relaxLink, hr, hnb1, hnbd, hnbr, hsh]
    · have hnbrTOK : TableOK nodes nbr.table := hWF.2.2.1 nbr hnbrmem
      obtain ⟨pnb, hfnb⟩ := Option.isSome_iff_exists.mp (hTOK.2.1 _ hnbmem)
      obtain ⟨nh, nc⟩ := pnb
      have hgc1 : router.getPathCost (neighbourOf lk router.ID) = nc := by
        simp [Router.getPathCost, hfnb]
      have hnc0 : 0 ≤ nc :=
        hTOK.2.2 (neighbourOf lk router.ID, nh, nc) (mapFind_some_mem _ _ _ _ hfnb)
      obtain ⟨pdd, hfdd⟩ := Option.isSome_iff_exists.mp (hnbrTOK.2.1 dest hdest)
      obtain ⟨dh, dc⟩ := pdd
      have hgc2 : nbr.getPathCost dest = dc := by
        simp [Router.getPathCost, hfdd]
      have hdc0 : 0 ≤ dc :=
        hnbrTOK.2.2 (dest, dh, dc) (mapFind_some_mem _ _ _ _ hfdd)
      by_cases hfire :
          router.getPathCost (neighbourOf lk router.ID) + nbr.getPathCost dest < cur ∨
          (router.getPathCost (neighbourOf lk router.ID) + nbr.getPathCost dest = cur ∧
            neighbourOf lk router.ID < hop)
      · set cand := router.getPathCost (neighbourOf lk router.ID) + nbr.getPathCost dest
          with hcand
        have hcand0 : 0 ≤ cand := by rw [hcand, hgc1, hgc2]; omega
        have hcandle : cand ≤ cur := by rcases hfire with ha | ha <;> omega
        set rt1 := router.addRoute dest (neighbourOf lk router.ID) cand with hrt1
        have hrtid : rt1.ID = router.ID := rfl
        have hrtbl : rt1.table =
            mapInsert dest (neighbourOf lk router.ID) cand router.table := rfl
        refine ⟨setNth routers i rt1, rt1, neighbourOf lk router.ID, cand,
          neighbourOf lk router.ID, true, ?_, ?_, ?_, hrtid, ?_, hcand0, hcandle,
          hcur0, ?_, ?_⟩
        · simp only [relaxLink, hr, hnb1, hnbd, hnbr, hsh]
          simp [hnb1, hnbd, hsh, if_pos hfire]
        · refine ⟨hWF.1, hWF.2.1, ?_, ?_⟩
          · intro r hrmem
            rcases mem_setNth routers i rt1 r hrmem with ha | ha
            · subst ha
              rw [hrtbl]
              refine ⟨pairwise_mapInsert _ _ _ _ hTOK.1, ?_, ?_⟩
              · intro n hn
                exact mapFind_isSome_mapInsert _ _ _ _ _ (hTOK.2.1 n hn)
              · intro e hr2
                rcases mem_mapInsert _ _ _ _ e hr2 with hb | hb
                · subst hb; exact hcand0
                · exact hTOK.2.2 e hb
            · exact hWF.2.2.1 r ha
          · rw [map_ID_setNth routers i rt1 router hr hrtid]
            exact hWF.2.2.2
        · exact nth_setNth_self routers i rt1 router hr
        · rw [hrtbl]; exact mapFind_mapInsert_self _ _ _ _
        · have hm1 := routersMeasure_setNth routers i rt1 router hr
          have hm2 := tableMeasure_mapInsert dest (neighbourOf lk router.ID) cand hp0 cur
            router.table hTOK.1 hEC
          rw [hrtbl] at hm1
          omega
        · refine Or.inr ⟨rfl, fun hhop => ?_⟩
          rcases hfire with ha | ha
          · exact ha
          · exfalso; rw [hhop] at ha; omega
      · refine ⟨routers, router, hp0, cur, hop, upd, ?_, hWF, hr, rfl, hEC, hcur0,
          le_refl _, hcur0, rfl, Or.inl rfl⟩
        simp only [relaxLink, hr]
        simp [hnb1, hnbd, hnbr, hsh, if_neg hfire]

theorem scanLinks_run
    (nodes : List Int) (links : List Link) (i : Nat) (dest : Int)
    (R0 : List Router) (c0 : Int) (u0 : Bool) :
    ∀ (ls : List Link) (routers : List Router) (cur hop : Int) (upd : Bool)
      (router : Router) (hp0 : Int),
      (∀ l ∈ ls, l ∈ links) →
      WF routers nodes links →
      nth routers i = some router →
      mapFind dest router.table = some (hp0, cur) →
      dest ∈ nodes →
      ((routers = R0 ∧ cur = c0 ∧ hop = -1 ∧ upd = u0) ∨
        (upd = true ∧ routersMeasure routers < routersMeasure R0)) →
      ∃ R1 rt1 hp1 c1 h1 u1,
        scanLinks i dest ls (routers, cur, hop, upd) = some (R1, c1, h1, u1) ∧
        WF R1 nodes links ∧
        nth R1 i = some rt1 ∧ rt1.ID = router.ID ∧
        mapFind dest rt1.table = some (hp1, c1) ∧
        ((R1 = R0 ∧ c1 = c0 ∧ h1 = -1 ∧ u1 = u0) ∨
          (u1 = true ∧ routersMeasure R1 < routersMeasure R0)) := by
  intro ls
  induction ls with
  | nil =>
    intro routers cur hop upd router hp0 _ hWF hr hEC hdest hist
    exact ⟨routers, router, hp0, cur, hop, upd, rfl, hWF, hr, rfl, hEC, hist⟩
  | cons lk ls ih =>
    intro routers cur hop upd router hp0 hls hWF hr hEC hdest hist
    obtain ⟨R2, rt2, hp2, c2, h2, u2, hstep, hWF2, hr2, hid2, hEC2, hc20, hc2le,
      hcur0, hmeas, hdisj⟩ :=
      relaxLink_run nodes links routers cur hop upd i dest lk router hp0 hWF
        (hls lk (by simp)) hr hEC hdest
    have hls2 : ∀ l ∈ ls, l ∈ links := fun l hl => hls l (by simp [hl])
    have hist2 : (R2 = R0 ∧ c2 = c0 ∧ h2 = -1 ∧ u2 = u0) ∨
        (u2 = true ∧ routersMeasure R2 < routersMeasure R0) := by
      rcases hist with ⟨hea, heb, hec, hed⟩ | ⟨hua, hub⟩
      · rcases hdisj with heq | ⟨hu2, hstrict⟩
        · simp only [Prod.mk.injEq] at heq
          obtain ⟨e1, e2, e3, e4⟩ := heq
          exact Or.inl ⟨e1.trans hea, e2.trans heb, e3.trans hec, e4.trans hed⟩
        · refine Or.inr ⟨hu2, ?_⟩
          have hlt : c2 < cur := hstrict hec
          subst hea
          omega
      · rcases hdisj with heq | ⟨hu2, _⟩
        · simp only [Prod.mk.injEq] at heq
          obtain ⟨e1, e2, e3, e4⟩ := heq
          subst e1; subst e4
          exact Or.inr ⟨hua, hub⟩
        · refine Or.inr ⟨hu2, ?_⟩
          omega
    obtain ⟨R1, rt1, hp1, c1, h1, u1, hrest, hWF1, hr1, hid1, hEC1, hdisj1⟩ :=
      ih R2 c2 h2 u2 rt2 hp2 hls2 hWF2 hr2 hEC2 hdest hist2
    refine ⟨R1, rt1, hp1, c1, h1, u1, ?_, hWF1, hr1, hid1.trans hid2, hEC1, hdisj1⟩
    simp [scanLinks, hstep, hrest]

theorem WF_length (routers : List Router) (nodes : List Int) (links : List Link)
    (hWF : WF routers nodes links) : routers.length = nodes.length := by
  have := congrArg List.length hWF.2.2.2
  simpa using this

theorem scanDest_run
    (nodes : List Int) (links : List Link) (i : Nat) (dest : Int)
    (routers : List Router) (upd : Bool)
    (hWF : WF routers nodes links) (hi : i < routers.length) (hdest : dest ∈ nodes) :
    ∃ R1 u1, scanDest i dest links routers upd = some (R1, u1) ∧
      WF R1 nodes links ∧
      ((R1 = routers ∧ u1 = upd) ∨
        (u1 = true ∧ routersMeasure R1 < routersMeasure routers)) := by
  obtain ⟨router, hr⟩ := nth_isSome_of_lt routers i hi
  have hTOK : TableOK nodes router.table := hWF.2.2.1 router (nth_mem _ _ _ hr)
  obtain ⟨p, hf⟩ := Option.isSome_iff_exists.mp (hTOK.2.1 dest hdest)
  obtain ⟨hp0, c0⟩ := p
  have hgp : router.getPathCost dest = c0 := by simp [Router.getPathCost, hf]
  obtain ⟨R1, rt1, hp1, c1, h1, u1, hscan, hWF1, hr1, hid1, hEC1, hdisj⟩ :=
    scanLinks_run nodes links i dest routers c0 upd links routers c0 (-1) upd router hp0
      (fun l hl => hl) hWF hr hf hdest (Or.inl ⟨rfl, rfl, rfl, rfl⟩)
  refine ⟨R1, u1, ?_, hWF1, ?_⟩
  · simp [scanDest, hr, hgp, hscan]
  · rcases hdisj with ⟨e1, _, _, e4⟩ | ⟨hu, hm⟩
    · exact Or.inl ⟨e1, e4⟩
    · exact Or.inr ⟨hu, hm⟩

theorem scanDests_run (nodes : List Int) (links : List Link) (i : Nat) :
    ∀ (ds : List Int) (routers : List Router) (upd : Bool),
      (∀ d ∈ ds, d ∈ nodes) →
      WF routers nodes links →
      i < routers.length →
      ∃ R1 u1, scanDests i links ds routers upd = some (R1, u1) ∧
        WF R1 nodes links ∧
        ((R1 = routers ∧ u1 = upd) ∨
          (u1 = true ∧ routersMeasure R1 < routersMeasure routers)) := by
  intro ds
  induction ds with
  | nil =>
    intro routers upd _ hWF _
    exact ⟨routers, upd, rfl, hWF, Or.inl ⟨rfl, rfl⟩⟩
  | cons d ds ih =>
    intro routers upd hds hWF hi
    obtain ⟨R2, u2, hstep, hWF2, hdisj2⟩ :=
      scanDest_run nodes links i d routers upd hWF hi (hds d (by simp))
    have hlen : R2.length = routers.length :=
      (WF_length R2 nodes links hWF2).trans (WF_length routers nodes links hWF).symm
    obtain ⟨R1, u1, hrest, hWF1, hdisj1⟩ :=
      ih R2 u2 (fun x hx => hds x (by simp [hx])) hWF2 (by omega)
    refine ⟨R1, u1, ?_, hWF1, ?_⟩
    · simp [scanDests, hstep, hrest]
    · rcases hdisj1 with ⟨e1, e2⟩ | ⟨hu1, hm1⟩
      · subst e1; subst e2
        exact hdisj2
      · rcases hdisj2 with ⟨e1, _⟩ | ⟨_, hm2⟩
        · subst e1
          exact Or.inr ⟨hu1, hm1⟩
        · exact Or.inr ⟨hu1, by omega⟩

theorem sweepFrom_run (nodes : List Int) (links : List Link) :
    ∀ (is2 : List Nat) (routers : List Router) (upd : Bool),
      (∀ j ∈ is2, j < nodes.length) →
      (∀ d ∈ nodes, d ∈ nodes) →
      WF routers nodes links →
      ∃ R1 u1, sweepFrom nodes links is2 routers upd = some (R1, u1) ∧
        WF R1 nodes links ∧
        ((R1 = routers ∧ u1 = upd) ∨
          (u1 = true ∧ routersMeasure R1 < routersMeasure routers)) := by
  intro is2
  induction is2 with
  | nil =>
    intro routers upd _ _ hWF
    exact ⟨routers, upd, rfl, hWF, Or.inl ⟨rfl, rfl⟩⟩
  | cons j is2 ih =>
    intro routers upd hjs _ hWF
    have hj : j < routers.length := by
      rw [WF_length routers nodes links hWF]
      exact hjs j (by simp)
    obtain ⟨R2, u2, hstep, hWF2, hdisj2⟩ :=
      scanDests_run nodes links j nodes routers upd (fun d hd => hd) hWF hj
    obtain ⟨R1, u1, hrest, hWF1, hdisj1⟩ :=
      ih R2 u2 (fun x hx => hjs x (by simp [hx])) (fun d hd => hd) hWF2
    refine ⟨R1, u1, ?_, hWF1, ?_⟩
    · simp [sweepFrom, hstep, hrest]
    · rcases hdisj1 with ⟨e1, e2⟩ | ⟨hu1, hm1⟩
      · subst e1; subst e2
        exact hdisj2
      · rcases hdisj2 with ⟨e1, _⟩ | ⟨_, hm2⟩
        · subst e1
          exact Or.inr ⟨hu1, hm1⟩
        · exact Or.inr ⟨hu1, by omega⟩

theorem sweepOnce_run (nodes : List Int) (links : List Link) (routers : List Router)
    (hWF : WF routers nodes links) :
    ∃ R1 u1, sweepOnce nodes links routers = some (R1, u1) ∧
      WF R1 nodes links ∧
      (u1 = false → R1 = routers) ∧
      (u1 = true → routersMeasure R1 < routersMeasure routers) := by
  obtain ⟨R1, u1, hrun, hWF1, hdisj⟩ :=
    sweepFrom_run nodes links (List.range routers.length) routers false
      (fun j hj => by
        have := List.mem_range.mp hj
        rw [← WF_length routers nodes links hWF]
        exact this)
      (fun d hd => hd) hWF
  refine ⟨R1, u1, hrun, hWF1, ?_, ?_⟩
  · intro hu
    rcases hdisj with ⟨e1, _⟩ | ⟨hu1, _⟩
    · exact e1
    · rw [hu] at hu1; exact absurd hu1 (by simp)
  · intro hu
    rcases hdisj with ⟨_, e2⟩ | ⟨_, hm⟩
    · rw [hu] at e2; exact absurd e2.symm (by simp)
    · exact hm

theorem doBellmanFordAlg_ok_of_fuel (nodes : List Int) (links : List Link) :
    ∀ (f : Nat) (routers : List Router), WF routers nodes links →
      routersMeasure routers < f →
      ∃ r1, doBellmanFordAlg f routers nodes links = .ok r1 := by
  intro f
  induction f with
  | zero =>
    intro routers _ hm
    exact absurd hm (by omega)
  | succ f ih =>
    intro routers hWF hm
    obtain ⟨R1, u1, hs, hWF1, hfalse, htrue⟩ := sweepOnce_run nodes links routers hWF
    cases u1 with
    | false =>
      refine ⟨R1, ?_⟩
      simp [doBellmanFordAlg, hs]
    | true =>
      have hlt := htrue rfl
      obtain ⟨r1, hr1⟩ := ih R1 hWF1 (by omega)
      refine ⟨r1, ?_⟩
      simp [doBellmanFordAlg, hs, hr1]

/-! ### Seeding lemmas: the rebuilt router collection is well-formed -/

/-- The per-node insertion step of the RoutingTable constructor. -/
def initStep (myID : Int) (t : Table) (id : Int) : Table :=
  if id = myID then mapInsert id id 0 t else mapInsert id (-1) 9999 t

theorem initTable_eq_foldl (myID : Int) (ns : List Int) :
    initTable myID ns = List.foldl (initStep myID) [] ns := rfl

theorem foldl_initStep_pairwise (myID : Int) :
    ∀ (ns : List Int) (acc : Table),
      List.Pairwise (· < ·) (tableKeys acc) →
      List.Pairwise (· < ·) (tableKeys (List.foldl (initStep myID) acc ns)) := by
  intro ns
  induction ns with
  | nil => intro acc h; simpa using h
  | cons n ns ih =>
    intro acc h
    simp only [List.foldl_cons]
    apply ih
    unfold initStep
    by_cases hn : n = myID
    · simp only [if_pos hn]; exact pairwise_mapInsert _ _ _ _ h
    · simp only [if_neg hn]; exact pairwise_mapInsert _ _ _ _ h

theorem foldl_initStep_costs (myID : Int) :
    ∀ (ns : List Int) (acc : Table),
      (∀ e ∈ acc, 0 ≤ e.2.2) →
      ∀ e ∈ List.foldl (initStep myID) acc ns, 0 ≤ e.2.2 := by
  intro ns
  induction ns with
  | nil => intro acc h; simpa using h
  | cons n ns ih =>
    intro acc h
    simp only [List.foldl_cons]
    apply ih
    intro e he
    unfold initStep at he
    by_cases hn : n = myID
    · simp only [if_pos hn] at he
      rcases mem_mapInsert _ _ _ _ e he with ha | ha
      · subst ha; simp
      · exact h e ha
    · simp only [if_neg hn] at he
      rcases mem_mapInsert _ _ _ _ e he with ha | ha
      · subst ha; simp
      · exact h e ha

theorem foldl_initStep_isSome (myID : Int) :
    ∀ (ns : List Int) (acc : Table) (n : Int),
      ((mapFind n acc).isSome = true ∨ n ∈ ns) →
      (mapFind n (List.foldl (initStep myID) acc ns)).isSome = true := by
  intro ns
  induction ns with
  | nil =>
    intro acc n h
    rcases h with h | h
    · simpa using h
    · simp at h
  | cons m ns ih =>
    intro acc n h
    simp only [List.foldl_cons]
    apply ih
    rcases h with h | h
    · left
      unfold initStep
      by_cases hm : m = myID
      · simp only [if_pos hm]; exact mapFind_isSome_mapInsert _ _ _ _ _ h
      · simp only [if_neg hm]; exact mapFind_isSome_mapInsert _ _ _ _ _ h
    · rcases List.mem_cons.mp h with ha | ha
      · left
        subst ha
        unfold initStep
        by_cases hm : n = myID
        · simp only [if_pos hm]; rw [mapFind_mapInsert_self]; rfl
        · simp only [if_neg hm]; rw [mapFind_mapInsert_self]; rfl
      · right; exact ha

theorem foldl_initStep_self (myID : Int) :
    ∀ (ns : List Int) (acc : Table),
      (mapFind myID acc = some (myID, 0) ∨ myID ∈ ns) →
      mapFind myID (List.foldl (initStep myID) acc ns) = some (myID, 0) := by
  intro ns
  induction ns with
  | nil =>
    intro acc h
    rcases h with h | h
    · simpa using h
    · simp at h
  | cons m ns ih =>
    intro acc h
    simp only [List.foldl_cons]
    apply ih
    by_cases hm : m = myID
    · left
      unfold initStep
      subst hm
      simp only [if_pos rfl]
      exact mapFind_mapInsert_self _ _ _ _
    · rcases h with h | h
      · left
        unfold initStep
        simp only [if_neg hm]
        rw [mapFind_mapInsert_ne m myID (-1) 9999 acc (fun e => hm e.symm)]
        exact h
      · rcases List.mem_cons.mp h with ha | ha
        · exact absurd ha.symm hm
        · right; exact ha

theorem initTable_TableOK (myID : Int) (ns : List Int) :
    TableOK ns (initTable myID ns) := by
  rw [initTable_eq_foldl]
  refine ⟨foldl_initStep_pairwise myID ns [] (by simp [tableKeys]), ?_, ?_⟩
  · intro n hn
    exact foldl_initStep_isSome myID ns [] n (Or.inr hn)
  · exact foldl_initStep_costs myID ns [] (by simp)

theorem initTable_self (myID : Int) (ns : List Int) (h : myID ∈ ns) :
    mapFind myID (initTable myID ns) = some (myID, 0) := by
  rw [initTable_eq_foldl]
  exact foldl_initStep_self myID ns [] (Or.inr h)

theorem updateFirst_ids (id : Int) (f : Router → Router)
    (hf : ∀ r, (f r).ID = r.ID) :
    ∀ (rs rs1 : List Router), updateFirst id f rs = some rs1 →
      rs1.map (fun r => r.ID) = rs.map (fun r => r.ID) := by
  intro rs
  induction rs with
  | nil => intro rs1 h; simp [updateFirst] at h
  | cons r rs ih =>
    intro rs1 h
    by_cases hr : r.ID = id
    · simp only [updateFirst, if_pos hr, Option.some.injEq] at h
      subst h
      simp [hf r]
    · simp only [updateFirst, if_neg hr] at h
      cases hrec : updateFirst id f rs with
      | none => rw [hrec] at h; simp at h
      | some rs2 =>
        rw [hrec] at h
        simp only [Option.map_some', Option.some.injEq] at h
        subst h
        simp [ih rs2 hrec]

theorem updateFirst_pres (id : Int) (f : Router → Router) (P : Router → Prop)
    (hf : ∀ r, P r → r.ID = id → P (f r)) :
    ∀ (rs rs1 : List Router), updateFirst id f rs = some rs1 →
      (∀ r ∈ rs, P r) → ∀ r ∈ rs1, P r := by
  intro rs
  induction rs with
  | nil => intro rs1 h; simp [updateFirst] at h
  | cons r rs ih =>
    intro rs1 h hall
    by_cases hr : r.ID = id
    · simp only [updateFirst, if_pos hr, Option.some.injEq] at h
      subst h
      intro x hx
      rcases List.mem_cons.mp hx with ha | ha
      · subst ha; exact hf r (hall r (by simp)) hr
      · exact hall x (by simp [ha])
    · simp only [updateFirst, if_neg hr] at h
      cases hrec : updateFirst id f rs with
      | none => rw [hrec] at h; simp at h
      | some rs2 =>
        rw [hrec] at h
        simp only [Option.map_some', Option.some.injEq] at h
        subst h
        intro x hx
        rcases List.mem_cons.mp hx with ha | ha
        · subst ha; exact hall x (by simp)
        · exact ih rs2 hrec (fun y hy => hall y (by simp [hy])) x ha

theorem TableOK_addRoute (nodes : List Int) (r : Router) (d hpp c : Int)
    (hTOK : TableOK nodes r.table) (hc : 0 ≤ c) :
    TableOK nodes (r.addRoute d hpp c).table := by
  refine ⟨pairwise_mapInsert _ _ _ _ hTOK.1, ?_, ?_⟩
  · intro n hn
    exact mapFind_isSome_mapInsert _ _ _ _ _ (hTOK.2.1 n hn)
  · intro e he
    rcases mem_mapInsert _ _ _ _ e he with ha | ha
    · subst ha; exact hc
    · exact hTOK.2.2 e ha

theorem seedLink_pres (nodes : List Int) (lk : Link) (hc : 0 ≤ lk.pathCost)
    (routers rs1 : List Router) (h : seedLink routers lk = some rs1)
    (hQ1 : ∀ r ∈ routers, TableOK nodes r.table)
    (hQ2 : routers.map (fun r => r.ID) = nodes) :
    (∀ r ∈ rs1, TableOK nodes r.table) ∧ rs1.map (fun r => r.ID) = nodes := by
  unfold seedLink at h
  cases h2 : updateFirst lk.node1
      (fun r => r.addRoute lk.node2 lk.node2 lk.pathCost) routers with
  | none => rw [h2] at h; simp at h
  | some rs2 =>
    rw [h2] at h
    have hp2 : ∀ r ∈ rs2, TableOK nodes r.table :=
      updateFirst_pres lk.node1 _ (fun r => TableOK nodes r.table)
        (fun r hr _ => TableOK_addRoute nodes r _ _ _ hr hc) routers rs2 h2 hQ1
    have hi2 : rs2.map (fun r => r.ID) = nodes := by
      rw [updateFirst_ids lk.node1 (fun r => r.addRoute lk.node2 lk.node2 lk.pathCost)
        (fun r => rfl) routers rs2 h2]
      exact hQ2
    have hp1 : ∀ r ∈ rs1, TableOK nodes r.table :=
      updateFirst_pres lk.node2 _ (fun r => TableOK nodes r.table)
        (fun r hr _ => TableOK_addRoute nodes r _ _ _ hr hc) rs2 rs1 h hp2
    have hi1 : rs1.map (fun r => r.ID) = nodes := by
      rw [updateFirst_ids lk.node2 (fun r => r.addRoute lk.node1 lk.node1 lk.pathCost)
        (fun r => rfl) rs2 rs1 h]
      exact hi2
    exact ⟨hp1, hi1⟩

theorem seedLinks_pres (nodes : List Int) :
    ∀ (ls : List Link) (routers rs1 : List Router),
      (∀ l ∈ ls, 0 ≤ l.pathCost) →
      seedLinks routers ls = some rs1 →
      (∀ r ∈ routers, TableOK nodes r.table) →
      routers.map (fun r => r.ID) = nodes →
      (∀ r ∈ rs1, TableOK nodes r.table) ∧ rs1.map (fun r => r.ID) = nodes := by
  intro ls
  induction ls with
  | nil =>
    intro routers rs1 _ h hQ1 hQ2
    simp only [seedLinks, Option.some.injEq] at h
    subst h
    exact ⟨hQ1, hQ2⟩
  | cons lk ls ih =>
    intro routers rs1 hcs h hQ1 hQ2
    simp only [seedLinks] at h
    cases h2 : seedLink routers lk with
    | none => rw [h2] at h; simp at h
    | some rs2 =>
      rw [h2] at h
      obtain ⟨hp2, hi2⟩ :=
        seedLink_pres nodes lk (hcs lk (by simp)) routers rs2 h2 hQ1 hQ2
      exact ih rs2 rs1 (fun l hl => hcs l (by simp [hl])) h hp2 hi2

theorem buildRouters_WF (nodes : List Int) (links : List Link) (s0 : List Router)
    (h0 : ∀ n ∈ nodes, 0 ≤ n)
    (h1 : ∀ l ∈ links, l.node1 ∈ nodes ∧ l.node2 ∈ nodes ∧ 0 ≤ l.pathCost)
    (hb : buildRouters nodes links = some s0) : WF s0 nodes links := by
  unfold buildRouters at hb
  have hQ1 : ∀ r ∈ nodes.map (fun id => Router.mk0 id nodes), TableOK nodes r.table := by
    intro r hr
    obtain ⟨id, _, hid⟩ := List.mem_map.mp hr
    subst hid
    exact initTable_TableOK id nodes
  have hQ2 : (nodes.map (fun id => Router.mk0 id nodes)).map (fun r => r.ID) = nodes := by
    rw [List.map_map]
    show List.map (fun id : Int => id) nodes = nodes
    simp
  obtain ⟨hp, hi⟩ := seedLinks_pres nodes links _ s0 (fun l hl => (h1 l hl).2.2) hb hQ1 hQ2
  exact ⟨h0, h1, hp, hi⟩

theorem buildRouters_SelfOK (nodes : List Int) (links : List Link) (s0 : List Router)
    (hnl : ∀ l ∈ links, l.node1 ≠ l.node2)
    (hb : buildRouters nodes links = some s0) : SelfOK s0 := by
  unfold buildRouters at hb
  have hinit : ∀ r ∈ nodes.map (fun id => Router.mk0 id nodes),
      mapFind r.ID r.table = some (r.ID, 0) := by
    intro r hr
    obtain ⟨id, hidmem, hid⟩ := List.mem_map.mp hr
    subst hid
    exact initTable_self id nodes hidmem
  have main : ∀ (ls : List Link) (routers rs1 : List Router),
      (∀ l ∈ ls, l.node1 ≠ l.node2) →
      seedLinks routers ls = some rs1 →
      (∀ r ∈ routers, mapFind r.ID r.table = some (r.ID, 0)) →
      ∀ r ∈ rs1, mapFind r.ID r.table = some (r.ID, 0) := by
    intro ls
    induction ls with
    | nil =>
      intro routers rs1 _ h hS
      simp only [seedLinks, Option.some.injEq] at h
      subst h
      exact hS
    | cons lk ls ih =>
      intro routers rs1 hnl2 h hS
      simp only [seedLinks] at h
      cases h2 : seedLink routers lk with
      | none => rw [h2] at h; simp at h
      | some rs2 =>
        rw [h2] at h
        have hne := hnl2 lk (by simp)
        have hS2 : ∀ r ∈ rs2, mapFind r.ID r.table = some (r.ID, 0) := by
          unfold seedLink at h2
          cases h3 : updateFirst lk.node1
              (fun r => r.addRoute lk.node2 lk.node2 lk.pathCost) routers with
          | none => rw [h3] at h2; simp at h2
          | some rs3 =>
            rw [h3] at h2
            have hS3 : ∀ r ∈ rs3, mapFind r.ID r.table = some (r.ID, 0) :=
              updateFirst_pres lk.node1 _ _
                (fun r hr hid => by
                  show mapFind r.ID (mapInsert lk.node2 lk.node2 lk.pathCost r.table) =
                    some (r.ID, 0)
                  rw [mapFind_mapInsert_ne lk.node2 r.ID _ _ r.table
                    (by rw [hid]; exact hne)]
                  exact hr)
                routers rs3 h3 hS
            exact updateFirst_pres lk.node2 _ _
              (fun r hr hid => by
                show mapFind r.ID (mapInsert lk.node1 lk.node1 lk.pathCost r.table) =
                  some (r.ID, 0)
                rw [mapFind_mapInsert_ne lk.node1 r.ID _ _ r.table
                  (by rw [hid]; exact fun e => hne e.symm)]
                exact hr)
              rs3 rs2 h2 hS3
        exact ih rs2 rs1 (fun l hl => hnl2 l (by simp [hl])) h hS2
  exact main links _ s0 hnl hb hinit

/-! ### Self-route preservation through the convergence sweep -/

theorem relaxLink_shape (i : Nat) (dest : Int) (lk : Link) (st st1 : ScanSt)
    (h : relaxLink i dest lk st = some st1) :
    st1 = st ∨
      ∃ router nb cand, nth st.1 i = some router ∧
        st1.1 = setNth st.1 i (router.addRoute dest nb cand) := by
  simp only [relaxLink] at h
  cases hnth : nth st.1 i with
  | none => rw [hnth] at h; simp at h
  | some router =>
    rw [hnth] at h
    simp only at h
    by_cases hskip : neighbourOf lk router.ID = -1 ∨ neighbourOf lk router.ID = dest
    · rw [if_pos hskip] at h
      exact Or.inl (Option.some.injEq .. ▸ h).symm
    · rw [if_neg hskip] at h
      cases hlook : getRouterByID st.1 (neighbourOf lk router.ID) with
      | none => rw [hlook] at h; simp at h
      | some nbr =>
        rw [hlook] at h
        simp only at h
        by_cases hsh : nbr.getNextHop dest = router.ID
        · rw [if_pos hsh] at h
          exact Or.inl (Option.some.injEq .. ▸ h).symm
        · rw [if_neg hsh] at h
          by_cases hfire :
              router.getPathCost (neighbourOf lk router.ID) + nbr.getPathCost dest < st.2.1 ∨
              (router.getPathCost (neighbourOf lk router.ID) + nbr.getPathCost dest = st.2.1 ∧
                neighbourOf lk router.ID < st.2.2.1)
          · rw [if_pos hfire] at h
            refine Or.inr ⟨router, neighbourOf lk router.ID,
              router.getPathCost (neighbourOf lk router.ID) + nbr.getPathCost dest, rfl, ?_⟩
            have := (Option.some.injEq .. ▸ h)
            rw [← this]
          · rw [if_neg hfire] at h
            exact Or.inl (Option.some.injEq .. ▸ h).symm

theorem relaxLink_selfOK (i : Nat) (dest : Int) (lk : Link) (st st1 : ScanSt)
    (h : relaxLink i dest lk st = some st1)
    (hS : SelfOK st.1)
    (hd : ∀ rt, nth st.1 i = some rt → dest ≠ rt.ID) : SelfOK st1.1 := by
  rcases relaxLink_shape i dest lk st st1 h with ha | ⟨router, nb, cand, hr, heq⟩
  · rw [ha]; exact hS
  · rw [heq]
    intro r hrmem
    rcases mem_setNth st.1 i _ r hrmem with hb | hb
    · subst hb
      show mapFind router.ID (mapInsert dest nb cand router.table) = some (router.ID, 0)
      rw [mapFind_mapInsert_ne dest router.ID nb cand router.table
        (fun e => hd router hr (e.symm))]
      exact hS router (nth_mem _ _ _ hr)
    · exact hS r hb

theorem scanLinks_self_id (nodes : List Int) (links : List Link) (i : Nat)
    (routers : List Router) (router : Router) (u : Bool)
    (hWF : WF routers nodes links)
    (hr : nth routers i = some router) :
    ∀ ls : List Link, (∀ l ∈ ls, l ∈ links) →
      scanLinks i router.ID ls (routers, 0, -1, u) = some (routers, 0, -1, u) := by
  have hdest : router.ID ∈ nodes := by
    rw [← hWF.2.2.2]
    exact List.mem_map.mpr ⟨router, nth_mem _ _ _ hr, rfl⟩
  have hTOK : TableOK nodes router.table := hWF.2.2.1 router (nth_mem _ _ _ hr)
  intro ls
  induction ls with
  | nil => intro _; rfl
  | cons lk ls ih =>
    intro hls
    have hstep : relaxLink i router.ID lk (routers, 0, -1, u) = some (routers, 0, -1, u) := by
      simp only [relaxLink, hr]
      by_cases hskip : neighbourOf lk router.ID = -1 ∨ neighbourOf lk router.ID = router.ID
      · simp [hskip]
      · push_neg at hskip
        obtain ⟨hnb1, hnbd⟩ := hskip
        have hnbmem : neighbourOf lk router.ID ∈ nodes := by
          rcases neighbourOf_cases lk router.ID hnb1 with ha | ha
          · rw [ha]; exact (hWF.2.1 lk (hls lk (by simp))).1
          · rw [ha]; exact (hWF.2.1 lk (hls lk (by simp))).2.1
        have hnb0 : 0 ≤ neighbourOf lk router.ID := hWF.1 _ hnbmem
        obtain ⟨nbr, hnbr, hnbrID, hnbrmem⟩ :=
          getRouterByID_some_of_mem routers (neighbourOf lk router.ID)
            (by rw [hWF.2.2.2]; exact hnbmem)
        by_cases hsh : nbr.getNextHop router.ID = router.ID
        · simp [hnb1, hnbd, hnbr, hsh]
        · have hnbrTOK : TableOK nodes nbr.table := hWF.2.2.1 nbr hnbrmem
          obtain ⟨pnb, hfnb⟩ := Option.isSome_iff_exists.mp (hTOK.2.1 _ hnbmem)
          obtain ⟨nh, nc⟩ := pnb
          have hgc1 : router.getPathCost (neighbourOf lk router.ID) = nc := by
            simp [Router.getPathCost, hfnb]
          have hnc0 : 0 ≤ nc :=
            hTOK.2.2 (neighbourOf lk router.ID, nh, nc) (mapFind_some_mem _ _ _ _ hfnb)
          obtain ⟨pdd, hfdd⟩ := Option.isSome_iff_exists.mp (hnbrTOK.2.1 _ hdest)
          obtain ⟨dh, dc⟩ := pdd
          have hgc2 : nbr.getPathCost router.ID = dc := by
            simp [Router.getPathCost, hfdd]
          have hdc0 : 0 ≤ dc :=
            hnbrTOK.2.2 (router.ID, dh, dc) (mapFind_some_mem _ _ _ _ hfdd)
          have hnofire : ¬ (router.getPathCost (neighbourOf lk router.ID) +
              nbr.getPathCost router.ID < 0 ∨
              (router.getPathCost (neighbourOf lk router.ID) +
                nbr.getPathCost router.ID = 0 ∧ neighbourOf lk router.ID < -1)) := by
            rw [hgc1, hgc2]
            push_neg
            constructor
            · omega
            · intro _; omega
          simp only [hnb1, hnbd, hnbr, hsh]
          simp [hnb1, hnbd, hsh, if_neg hnofire]
    rw [scanLinks, hstep]
    exact ih (fun l hl => hls l (by simp [hl]))

theorem scanLinks_selfOK (i : Nat) (dest rid : Int) (hne : dest ≠ rid) :
    ∀ (ls : List Link) (st st1 : ScanSt),
      scanLinks i dest ls st = some st1 →
      SelfOK st.1 →
      (∃ rt, nth st.1 i = some rt ∧ rt.ID = rid) →
      SelfOK st1.1 ∧ (∃ rt1, nth st1.1 i = some rt1 ∧ rt1.ID = rid) := by
  intro ls
  induction ls with
  | nil =>
    intro st st1 h hS hrt
    simp only [scanLinks, Option.some.injEq] at h
    subst h
    exact ⟨hS, hrt⟩
  | cons lk ls ih =>
    intro st st1 h hS hrt
    simp only [scanLinks] at h
    cases hstep : relaxLink i dest lk st with
    | none => rw [hstep] at h; simp at h
    | some st2 =>
      rw [hstep] at h
      obtain ⟨rt, hrta, hrtb⟩ := hrt
      have hS2 : SelfOK st2.1 :=
        relaxLink_selfOK i dest lk st st2 hstep hS
          (fun rt2 hrt2 => by
            rw [hrta] at hrt2
            have : rt2 = rt := by
              have := Option.some.injEq .. ▸ hrt2
              exact this.symm
            rw [this, hrtb]
            exact hne)
      have hrt2 : ∃ rt2, nth st2.1 i = some rt2 ∧ rt2.ID = rid := by
        rcases relaxLink_shape i dest lk st st2 hstep with ha | ⟨router, nb, cand, hrr, heq⟩
        · rw [ha]; exact ⟨rt, hrta, hrtb⟩
        · refine ⟨router.addRoute dest nb cand, ?_, ?_⟩
          · rw [heq]; exact nth_setNth_self _ _ _ _ hrr
          · show router.ID = rid
            have : router = rt := by
              rw [hrta] at hrr
              exact (Option.some.injEq .. ▸ hrr).symm
            rw [this, hrtb]
      exact ih st2 st1 h hS2 hrt2

theorem scanDest_selfOK (nodes : List Int) (links : List Link) (i : Nat) (dest : Int)
    (routers : List Router) (upd : Bool) (R1 : List Router) (u1 : Bool)
    (hWF : WF routers nodes links) (hS : SelfOK routers)
    (hrun : scanDest i dest links routers upd = some (R1, u1)) : SelfOK R1 := by
  simp only [scanDest] at hrun
  cases hnth : nth routers i with
  | none => rw [hnth] at hrun; simp at hrun
  | some router =>
    rw [hnth] at hrun
    simp only at hrun
    by_cases hdd : dest = router.ID
    · have hfind : mapFind router.ID router.table = some (router.ID, 0) :=
        hS router (nth_mem _ _ _ hnth)
      have hgp : router.getPathCost dest = 0 := by
        rw [hdd]; simp [Router.getPathCost, hfind]
      rw [hgp, hdd] at hrun
      rw [scanLinks_self_id nodes links i routers router upd hWF hnth links
        (fun l hl => hl)] at hrun
      simp only [Option.some.injEq, Prod.mk.injEq] at hrun
      rw [← hrun.1]
      exact hS
    · cases hscan : scanLinks i dest links (routers, router.getPathCost dest, -1, upd) with
      | none => rw [hscan] at hrun; simp at hrun
      | some st1 =>
        rw [hscan] at hrun
        obtain ⟨st1a, st1b, st1c, st1d⟩ := st1
        simp only [Option.some.injEq, Prod.mk.injEq] at hrun
        obtain ⟨hsel, _⟩ := hrun
        obtain ⟨hSfin, _⟩ :=
          scanLinks_selfOK i dest router.ID hdd links
            (routers, router.getPathCost dest, -1, upd) (st1a, st1b, st1c, st1d)
            hscan hS ⟨router, hnth, rfl⟩
        rw [← hsel]
        exact hSfin

theorem scanDests_selfOK (nodes : List Int) (links : List Link) (i : Nat) :
    ∀ (ds : List Int) (routers : List Router) (upd : Bool) (R1 : List Router) (u1 : Bool),
      (∀ d ∈ ds, d ∈ nodes) →
      WF routers nodes links →
      i < routers.length →
      SelfOK routers →
      scanDests i links ds routers upd = some (R1, u1) → SelfOK R1 := by
  intro ds
  induction ds with
  | nil =>
    intro routers upd R1 u1 _ _ _ hS h
    simp only [scanDests, Option.some.injEq, Prod.mk.injEq] at h
    rw [← h.1]
    exact hS
  | cons d ds ih =>
    intro routers upd R1 u1 hds hWF hi hS h
    simp only [scanDests] at h
    cases hstep : scanDest i d links routers upd with
    | none => rw [hstep] at h; simp at h
    | some p =>
      rw [hstep] at h
      obtain ⟨R2, u2⟩ := p
      have hS2 : SelfOK R2 :=
        scanDest_selfOK nodes links i d routers upd R2 u2 hWF hS hstep
      obtain ⟨R2x, u2x, hrun2, hWF2, _⟩ :=
        scanDest_run nodes links i d routers upd hWF hi (hds d (by simp))
      have hReq : R2x = R2 ∧ u2x = u2 := by
        rw [hstep] at hrun2
        have := Option.some.injEq .. ▸ hrun2
        exact ⟨(congrArg Prod.fst this).symm, (congrArg Prod.snd this).symm⟩
      exact ih R2 u2 R1 u1 (fun x hx => hds x (by simp [hx])) (hReq.1 ▸ hWF2)
        (by
          have hlen : R2.length = routers.length := by
            rw [← hReq.1]
            exact (WF_length R2x nodes links hWF2).trans
              (WF_length routers nodes links hWF).symm
          omega) hS2 h

theorem sweepFrom_selfOK (nodes : List Int) (links : List Link) :
    ∀ (is2 : List Nat) (routers : List Router) (upd : Bool) (R1 : List Router) (u1 : Bool),
      (∀ j ∈ is2, j < nodes.length) →
      WF routers nodes links →
      SelfOK routers →
      sweepFrom nodes links is2 routers upd = some (R1, u1) → SelfOK R1 := by
  intro is2
  induction is2 with
  | nil =>
    intro routers upd R1 u1 _ _ hS h
    simp only [sweepFrom, Option.some.injEq, Prod.mk.injEq] at h
    rw [← h.1]
    exact hS
  | cons j is2 ih =>
    intro routers upd R1 u1 hjs hWF hS h
    simp only [sweepFrom] at h
    cases hstep : scanDests j links nodes routers upd with
    | none => rw [hstep] at h; simp at h
    | some p =>
      rw [hstep] at h
      obtain ⟨R2, u2⟩ := p
      have hj : j < routers.length := by
        rw [WF_length routers nodes links hWF]
        exact hjs j (by simp)
      have hS2 : SelfOK R2 :=
        scanDests_selfOK nodes links j nodes routers upd R2 u2 (fun d hd => hd)
          hWF hj hS hstep
      obtain ⟨R2x, u2x, hrun2, hWF2, _⟩ :=
        scanDests_run nodes links j nodes routers upd (fun d hd => hd) hWF hj
      have hReq : R2x = R2 := by
        rw [hstep] at hrun2
        have := Option.some.injEq .. ▸ hrun2
        exact (congrArg Prod.fst this).symm
      exact ih R2 u2 R1 u1 (fun x hx => hjs x (by simp [hx])) (hReq ▸ hWF2) hS2 h

theorem sweepOnce_selfOK (nodes : List Int) (links : List Link)
    (routers R1 : List Router) (u1 : Bool)
    (hWF : WF routers nodes links) (hS : SelfOK routers)
    (h : sweepOnce nodes links routers = some (R1, u1)) : SelfOK R1 := by
  refine sweepFrom_selfOK nodes links (List.range routers.length) routers false R1 u1
    ?_ hWF hS h
  intro j hj
  rw [← WF_length routers nodes links hWF]
  exact List.mem_range.mp hj

theorem doBellmanFordAlg_selfOK (nodes : List Int) (links : List Link) :
    ∀ (f : Nat) (routers r1 : List Router),
      WF routers nodes links →
      SelfOK routers →
      doBellmanFordAlg f routers nodes links = .ok r1 → SelfOK r1 := by
  intro f
  induction f with
  | zero =>
    intro routers r1 _ _ h
    simp [doBellmanFordAlg] at h
  | succ f ih =>
    intro routers r1 hWF hS h
    simp only [doBellmanFordAlg] at h
    cases hs : sweepOnce nodes links routers with
    | none => rw [hs] at h; simp at h
    | some p =>
      rw [hs] at h
      obtain ⟨R1, u1⟩ := p
      obtain ⟨R1x, u1x, hrun, hWF1, _⟩ := sweepOnce_run nodes links routers hWF
      have hReq : R1x = R1 := by
        rw [hs] at hrun
        have := Option.some.injEq .. ▸ hrun
        exact (congrArg Prod.fst this).symm
      have hS1 : SelfOK R1 := sweepOnce_selfOK nodes links routers R1 u1 hWF hS hs
      cases u1 with
      | true => exact ih R1 r1 (hReq ▸ hWF1) hS1 h
      | false =>
        simp only [BFResult.ok.injEq] at h
        rw [← h]
        exact hS1

/-! ### A zero-update sweep changes nothing (idempotence infrastructure) -/

theorem relaxLink_mono (i : Nat) (dest : Int) (lk : Link) (st st1 : ScanSt)
    (h : relaxLink i dest lk st = some st1) : st1 = st ∨ st1.2.2.2 = true := by
  simp only [relaxLink] at h
  cases hnth : nth st.1 i with
  | none => rw [hnth] at h; simp at h
  | some router =>
    rw [hnth] at h
    simp only at h
    by_cases hskip : neighbourOf lk router.ID = -1 ∨ neighbourOf lk router.ID = dest
    · rw [if_pos hskip] at h
      exact Or.inl (Option.some.injEq .. ▸ h).symm
    · rw [if_neg hskip] at h
      cases hlook : getRouterByID st.1 (neighbourOf lk router.ID) with
      | none => rw [hlook] at h; simp at h
      | some nbr =>
        rw [hlook] at h
        simp only at h
        by_cases hsh : nbr.getNextHop dest = router.ID
        · rw [if_pos hsh] at h
          exact Or.inl (Option.some.injEq .. ▸ h).symm
        · rw [if_neg hsh] at h
          by_cases hfire :
              router.getPathCost (neighbourOf lk router.ID) + nbr.getPathCost dest < st.2.1 ∨
              (router.getPathCost (neighbourOf lk router.ID) + nbr.getPathCost dest = st.2.1 ∧
                neighbourOf lk router.ID < st.2.2.1)
          · rw [if_pos hfire] at h
            refine Or.inr ?_
            have he := (Option.some.injEq .. ▸ h).symm
            rw [he]
          · rw [if_neg hfire] at h
            exact Or.inl (Option.some.injEq .. ▸ h).symm

theorem scanLinks_upd_true (i : Nat) (dest : Int) :
    ∀ (ls : List Link) (st st1 : ScanSt),
      st.2.2.2 = true → scanLinks i dest ls st = some st1 → st1.2.2.2 = true := by
  intro ls
  induction ls with
  | nil =>
    intro st st1 hu h
    simp only [scanLinks, Option.some.injEq] at h
    rw [← h]
    exact hu
  | cons lk ls ih =>
    intro st st1 hu h
    simp only [scanLinks] at h
    cases hstep : relaxLink i dest lk st with
    | none => rw [hstep] at h; simp at h
    | some st2 =>
      rw [hstep] at h
      rcases relaxLink_mono i dest lk st st2 hstep with ha | ha
      · exact ih st2 st1 (ha ▸ hu) h
      · exact ih st2 st1 ha h

theorem scanLinks_false (i : Nat) (dest : Int) :
    ∀ (ls : List Link) (st st1 : ScanSt),
      scanLinks i dest ls st = some st1 → st1.2.2.2 = false → st1 = st := by
  intro ls
  induction ls with
  | nil =>
    intro st st1 h _
    simp only [scanLinks, Option.some.injEq] at h
    exact h.symm
  | cons lk ls ih =>
    intro st st1 h hu
    simp only [scanLinks] at h
    cases hstep : relaxLink i dest lk st with
    | none => rw [hstep] at h; simp at h
    | some st2 =>
      rw [hstep] at h
      rcases relaxLink_mono i dest lk st st2 hstep with ha | ha
      · rw [← ha]
        exact ih st2 st1 h hu
      · have := scanLinks_upd_true i dest ls st2 st1 ha h
        rw [hu] at this
        exact absurd this (by simp)

theorem scanDest_false (i : Nat) (dest : Int) (links : List Link)
    (routers R1 : List Router) (upd u1 : Bool)
    (h : scanDest i dest links routers upd = some (R1, u1)) (hu : u1 = false) :
    R1 = routers ∧ upd = false := by
  simp only [scanDest] at h
  cases hnth : nth routers i with
  | none => rw [hnth] at h; simp at h
  | some router =>
    rw [hnth] at h
    simp only at h
    cases hscan : scanLinks i dest links (routers, router.getPathCost dest, -1, upd) with
    | none => rw [hscan] at h; simp at h
    | some st1 =>
      rw [hscan] at h
      obtain ⟨sa, sb, sc, sd⟩ := st1
      simp only [Option.some.injEq, Prod.mk.injEq] at h
      obtain ⟨hA, hB⟩ := h
      have hsd : sd = false := by rw [hB, hu]
      have := scanLinks_false i dest links
        (routers, router.getPathCost dest, -1, upd) (sa, sb, sc, sd) hscan hsd
      simp only [Prod.mk.injEq] at this
      exact ⟨hA ▸ this.1, (this.2.2.2).symm.trans hsd⟩

theorem scanDest_upd_true (i : Nat) (dest : Int) (links : List Link)
    (routers R1 : List Router) (u1 : Bool)
    (h : scanDest i dest links routers true = some (R1, u1)) : u1 = true := by
  simp only [scanDest] at h
  cases hnth : nth routers i with
  | none => rw [hnth] at h; simp at h
  | some router =>
    rw [hnth] at h
    simp only at h
    cases hscan : scanLinks i dest links (routers, router.getPathCost dest, -1, true) with
    | none => rw [hscan] at h; simp at h
    | some st1 =>
      rw [hscan] at h
      obtain ⟨sa, sb, sc, sd⟩ := st1
      simp only [Option.some.injEq, Prod.mk.injEq] at h
      have := scanLinks_upd_true i dest links
        (routers, router.getPathCost dest, -1, true) (sa, sb, sc, sd) rfl hscan
      rw [← h.2]
      exact this

theorem scanDests_upd_true (i : Nat) (links : List Link) :
    ∀ (ds : List Int) (routers R1 : List Router) (u1 : Bool),
      scanDests i links ds routers true = some (R1, u1) → u1 = true := by
  intro ds
  induction ds with
  | nil =>
    intro routers R1 u1 h
    simp only [scanDests, Option.some.injEq, Prod.mk.injEq] at h
    exact h.2.symm
  | cons d ds ih =>
    intro routers R1 u1 h
    simp only [scanDests] at h
    cases hstep : scanDest i d links routers true with
    | none => rw [hstep] at h; simp at h
    | some p =>
      rw [hstep] at h
      obtain ⟨R2, u2⟩ := p
      have hu2 : u2 = true := scanDest_upd_true i d links routers R2 u2 hstep
      rw [hu2] at h
      exact ih R2 R1 u1 h

theorem scanDests_false (i : Nat) (links : List Link) :
    ∀ (ds : List Int) (routers R1 : List Router) (upd u1 : Bool),
      scanDests i links ds routers upd = some (R1, u1) → u1 = false →
      R1 = routers ∧ upd = false := by
  intro ds
  induction ds with
  | nil =>
    intro routers R1 upd u1 h hu
    simp only [scanDests, Option.some.injEq, Prod.mk.injEq] at h
    exact ⟨h.1.symm, h.2 ▸ hu⟩
  | cons d ds ih =>
    intro routers R1 upd u1 h hu
    simp only [scanDests] at h
    cases hstep : scanDest i d links routers upd with
    | none => rw [hstep] at h; simp at h
    | some p =>
      rw [hstep] at h
      obtain ⟨R2, u2⟩ := p
      obtain ⟨hA, hB⟩ := ih R2 R1 u2 u1 h hu
      obtain ⟨hC, hD⟩ := scanDest_false i d links routers R2 upd u2 hstep hB
      exact ⟨hA.trans hC, hD⟩

theorem sweepFrom_false (nodes : List Int) (links : List Link) :
    ∀ (is2 : List Nat) (routers R1 : List Router) (upd u1 : Bool),
      sweepFrom nodes links is2 routers upd = some (R1, u1) → u1 = false →
      R1 = routers ∧ upd = false := by
  intro is2
  induction is2 with
  | nil =>
    intro routers R1 upd u1 h hu
    simp only [sweepFrom, Option.some.injEq, Prod.mk.injEq] at h
    exact ⟨h.1.symm, h.2 ▸ hu⟩
  | cons j is2 ih =>
    intro routers R1 upd u1 h hu
    simp only [sweepFrom] at h
    cases hstep : scanDests j links nodes routers upd with
    | none => rw [hstep] at h; simp at h
    | some p =>
      rw [hstep] at h
      obtain ⟨R2, u2⟩ := p
      obtain ⟨hA, hB⟩ := ih R2 R1 u2 u1 h hu
      obtain ⟨hC, hD⟩ := scanDests_false j links nodes routers R2 upd u2 hstep hB
      exact ⟨hA.trans hC, hD⟩

theorem sweepOnce_false (nodes : List Int) (links : List Link)
    (routers R1 : List Router)
    (h : sweepOnce nodes links routers = some (R1, false)) : R1 = routers := by
  exact (sweepFrom_false nodes links (List.range routers.length) routers R1 false false
    h rfl).1

theorem doBellmanFordAlg_fixpoint (nodes : List Int) (links : List Link) :
    ∀ (f : Nat) (routers r1 : List Router),
      doBellmanFordAlg f routers nodes links = .ok r1 →
      sweepOnce nodes links r1 = some (r1, false) := by
  intro f
  induction f with
  | zero =>
    intro routers r1 h
    simp [doBellmanFordAlg] at h
  | succ f ih =>
    intro routers r1 h
    simp only [doBellmanFordAlg] at h
    cases hs : sweepOnce nodes links routers with
    | none => rw [hs] at h; simp at h
    | some p =>
      rw [hs] at h
      obtain ⟨R1, u1⟩ := p
      cases u1 with
      | true => exact ih R1 r1 h
      | false =>
        simp only [BFResult.ok.injEq] at h
        have hfix : R1 = routers := sweepOnce_false nodes links routers R1 hs
        rw [← h, hfix]
        rw [hfix] at hs
        exact hs

/-! ### Helper lemmas on node-set insertion and link removal -/

/-- The pair-matching predicate of `removeLink`, direction-agnostic. -/
def sameEnds (l c : Link) : Prop :=
  (l.node1 = c.node1 ∧ l.node2 = c.node2) ∨ (l.node1 = c.node2 ∧ l.node2 = c.node1)

instance (l c : Link) : Decidable (sameEnds l c) := by
  unfold sameEnds; infer_instance

/-- Boolean form of `sameEnds`, as written inside `removeLink`. -/
def sameEndsB (l c : Link) : Bool :=
  (l.node1 == c.node1 && l.node2 == c.node2) ||
  (l.node1 == c.node2 && l.node2 == c.node1)

theorem sameEndsB_iff (l c : Link) : sameEndsB l c = true ↔ sameEnds l c := by
  unfold sameEndsB sameEnds
  simp

theorem removeLink_eq_filter (links : List Link) (c : Link) :
    removeLink links c = links.filter (fun l => !sameEndsB l c) := rfl

theorem mem_removeLink (links : List Link) (c l : Link) :
    l ∈ removeLink links c ↔ l ∈ links ∧ ¬ sameEnds l c := by
  rw [removeLink_eq_filter, List.mem_filter]
  constructor
  · rintro ⟨h1, h2⟩
    refine ⟨h1, ?_⟩
    intro hS
    rw [(sameEndsB_iff l c).mpr hS] at h2
    simp at h2
  · rintro ⟨h1, h2⟩
    refine ⟨h1, ?_⟩
    cases hB : sameEndsB l c with
    | false => rfl
    | true => exact absurd ((sameEndsB_iff l c).mp hB) h2

theorem removeLink_no_match (links : List Link) (c : Link)
    (h : ∀ l ∈ links, ¬ sameEnds l c) : removeLink links c = links := by
  rw [removeLink_eq_filter]
  induction links with
  | nil => rfl
  | cons l ls ih =>
    have hl2 : sameEndsB l c = false := by
      cases hB : sameEndsB l c with
      | false => rfl
      | true => exact absurd ((sameEndsB_iff l c).mp hB) (h l (by simp))
    simp only [List.filter, hl2, Bool.not_false]
    rw [ih (fun x hx => h x (by simp [hx]))]

theorem mem_setInsert (n m : Int) (ns : List Int) :
    m ∈ setInsert n ns ↔ m = n ∨ m ∈ ns := by
  induction ns with
  | nil => simp [setInsert]
  | cons k ks ih =>
    by_cases h1 : n < k
    · simp [setInsert, h1, List.mem_cons]
    · by_cases h2 : n = k
      · subst h2
        have he : setInsert n (n :: ks) = n :: ks := by simp [setInsert]
        rw [he, List.mem_cons]
        tauto
      · simp only [setInsert, if_neg h1, if_neg h2, List.mem_cons, ih]
        tauto

theorem setInsert_eq_self (n : Int) (ns : List Int)
    (hs : List.Pairwise (· < ·) ns) (hn : n ∈ ns) : setInsert n ns = ns := by
  induction ns with
  | nil => simp at hn
  | cons k ks ih =>
    rw [List.pairwise_cons] at hs
    rcases List.mem_cons.mp hn with ha | ha
    · subst ha
      simp [setInsert]
    · have hlt : k < n := hs.1 n ha
      have h1 : ¬ n < k := by omega
      have h2 : ¬ n = k := by omega
      simp only [setInsert, if_neg h1, if_neg h2]
      rw [ih hs.2 ha]

/-- One-step unfolding of the hop walk at positive fuel. -/
theorem hopWalk_succ (routers : List Router) (dest : Int) (f : Nat) (c : Int)
    (acc : List Int) :
    hopWalk routers dest (f + 1) c acc =
      if c = dest then .delivered acc.reverse
      else
        match getRouterByID routers c with
        | none => .exn
        | some r => hopWalk routers dest f (r.getNextHop dest) (c :: acc) := rfl

/-- A state on which a full sweep rewrites the same values (so the updated
flag is set but nothing changes) keeps the convergence loop running forever. -/
theorem bf_stuck (nodes : List Int) (links : List Link) (s : List Router)
    (h : sweepOnce nodes links s = some (s, true)) :
    ∀ f, doBellmanFordAlg f s nodes links = .fuelOut := by
  intro f
  induction f with
  | zero => rfl
  | succ f ih => simp [doBellmanFordAlg, h, ih]

/-! ### Concrete topologies used by the claim theorems -/

/-- Node set of the specification's running example. -/
def exNodes : List Int := [1, 2, 3]

/-- Link list of the specification's running example
{(1,2,1), (2,3,1), (1,3,5)}. -/
def exLinks : List Link := [⟨1, 2, 1⟩, ⟨2, 3, 1⟩, ⟨1, 3, 5⟩]

/-- Seeded router collection of the running example. -/
def exSeed : List Router :=
  [⟨1, [(1, 1, 0), (2, 2, 1), (3, 3, 5)]⟩,
   ⟨2, [(1, 1, 1), (2, 2, 0), (3, 3, 1)]⟩,
   ⟨3, [(1, 1, 5), (2, 2, 1), (3, 3, 0)]⟩]

/-- Converged router collection of the running example: node 1 reaches 3
via 2 at cost 2. -/
def exConv : List Router :=
  [⟨1, [(1, 1, 0), (2, 2, 1), (3, 2, 2)]⟩,
   ⟨2, [(1, 1, 1), (2, 2, 0), (3, 3, 1)]⟩,
   ⟨3, [(1, 2, 2), (2, 2, 1), (3, 3, 0)]⟩]

/-! ### Claim C1 -/

/-- Node set of the C1 counterexample topology. -/
def c1Nodes : List Int := [1, 2, 3, 4]

/-- Link list of the C1 counterexample topology: the direct 1–2 link costs
10 but node 1's table route to 2 improves to cost 2 via node 3 during the
first sweep, before destination 4 is scanned. -/
def c1Links : List Link := [⟨1, 2, 10⟩, ⟨1, 3, 1⟩, ⟨2, 3, 1⟩, ⟨2, 4, 1⟩]

/-- The seeded router collection of the C1 topology. -/
def c1Seed : List Router := (buildRouters c1Nodes c1Links).getD []

/-- The router vector reached mid-sweep, after node 1 has scanned
destinations 1, 2, 3 (its route to 2 is now (3, 2)), just as the scan of
destination 4 begins. -/
def c1Mid : List Router := ((scanDests 0 c1Links [1, 2, 3] c1Seed false).getD ([], false)).1

/-- First router of `c1Mid` (node 1, with its updated route to 2). -/
def c1R1 : Router := (nth c1Mid 0).getD ⟨0, []⟩

/-- Node 1's neighbour 2 in `c1Mid`. -/
def c1R2 : Router := (getRouterByID c1Mid 2).getD ⟨0, []⟩

/-- Claim C1, counterexample.  At the reachable mid-sweep state `c1Mid`
(obtained from the seeded collection by the first router's scans of
destinations 1, 2, 3), scanning link (1,2,10) for destination 4 makes the
code adopt candidate cost 3 = (node 1's current table cost 2 to neighbour
2) + (2's cost 1 to 4), whereas the claim's formula — direct link cost 10
plus neighbour's cost 1 — yields 11.  `relaxLink` is the code's loop body,
`relaxLinkClaim` the claim's reading; they disagree at this state, so the
candidate evaluated is not the direct link cost plus the neighbour's cost. -/
theorem C1_counterexample :
    relaxLink 0 4 ⟨1, 2, 10⟩ (c1Mid, 9999, -1, true) ≠
      relaxLinkClaim 0 4 ⟨1, 2, 10⟩ (c1Mid, 9999, -1, true) ∧
    (relaxLink 0 4 ⟨1, 2, 10⟩ (c1Mid, 9999, -1, true)).map (fun st => st.2.1) =
      some 3 ∧
    (relaxLinkClaim 0 4 ⟨1, 2, 10⟩ (c1Mid, 9999, -1, true)).map (fun st => st.2.1) =
      some 11 := by
  refine ⟨?_, by decide, by decide⟩
  decide

/-- Claim C1, amended.  In every convergence sweep, for a link whose
neighbour survives the `neighbourID == -1`, `neighbourID == destination`
and split-horizon filters, the candidate cost evaluated is R's CURRENT
TABLE COST to the neighbour plus the neighbour's current cost to the
destination (not the direct link cost), and (N, candidate) is adopted
exactly when the candidate is strictly below the running best cost, or ties
it with a neighbour id lower than the candidate hop recorded so far in this
scan. -/
theorem C1_theorem (routers : List Router) (cur hop : Int) (upd : Bool) (i : Nat)
    (dest : Int) (lk : Link) (router nbr : Router)
    (hr : nth routers i = some router)
    (hnb1 : neighbourOf lk router.ID ≠ -1)
    (hnbd : neighbourOf lk router.ID ≠ dest)
    (hlook : getRouterByID routers (neighbourOf lk router.ID) = some nbr)
    (hsh : nbr.getNextHop dest ≠ router.ID) :
    relaxLink i dest lk (routers, cur, hop, upd) =
      (if router.getPathCost (neighbourOf lk router.ID) + nbr.getPathCost dest < cur ∨
          (router.getPathCost (neighbourOf lk router.ID) + nbr.getPathCost dest = cur ∧
            neighbourOf lk router.ID < hop)
        then some (setNth routers i (router.addRoute dest (neighbourOf lk router.ID)
            (router.getPathCost (neighbourOf lk router.ID) + nbr.getPathCost dest)),
          router.getPathCost (neighbourOf lk router.ID) + nbr.getPathCost dest,
          neighbourOf lk router.ID, true)
        else some (routers, cur, hop, upd)) := by
  simp only [relaxLink, hr]
  rw [if_neg (by push_neg; exact ⟨hnb1, hnbd⟩)]
  rw [hlook]
  simp only
  rw [if_neg hsh]

/-- Witness for C1's amended theorem at the concrete mid-sweep state: the
step adopts (2, 3), the table-cost candidate. -/
theorem C1_witness :
    relaxLink 0 4 ⟨1, 2, 10⟩ (c1Mid, 9999, -1, true) =
      some (setNth c1Mid 0 (c1R1.addRoute 4 2 3), 3, 2, true) := by
  rw [C1_theorem c1Mid 9999 (-1) true 0 4 ⟨1, 2, 10⟩ c1R1 c1R2 (by decide) (by decide)
    (by decide) (by decide) (by decide)]
  decide

/-! ### Claim C2 -/

/-- Claim C2, amended.  `applyChange` always inserts both endpoints into the
node set; on the -999 sentinel it deletes every link matching the pair in
either orientation; for ANY OTHER COST IT APPENDS the change record to the
link list (it does not replace an existing link for the pair, so a
pre-existing link survives and the pair can occur several times); the
router collection is rebuilt from the resulting node set and link list. -/
theorem C2_theorem (change : Link) (routers rs1 : List Router)
    (nodes nodes1 : List Int) (links links1 : List Link)
    (h : applyChange change routers nodes links = some (rs1, nodes1, links1)) :
    (change.node1 ∈ nodes1 ∧ change.node2 ∈ nodes1 ∧ (∀ n ∈ nodes, n ∈ nodes1)) ∧
    (change.pathCost = -999 →
      ∀ l : Link, l ∈ links1 ↔ (l ∈ links ∧ ¬ sameEnds l change)) ∧
    (change.pathCost ≠ -999 → links1 = links ++ [change]) ∧
    buildRouters nodes1 links1 = some rs1 := by
  simp only [applyChange] at h
  cases hb : buildRouters (setInsert change.node2 (setInsert change.node1 nodes))
      (if change.pathCost = -999 then removeLink links change else links ++ [change]) with
  | none => rw [hb] at h; simp at h
  | some rs =>
    rw [hb] at h
    simp only [Option.some.injEq, Prod.mk.injEq] at h
    obtain ⟨hrs, hn1, hl1⟩ := h
    refine ⟨?_, ?_, ?_, ?_⟩
    · rw [← hn1]
      refine ⟨?_, ?_, ?_⟩
      · rw [mem_setInsert]
        right
        rw [mem_setInsert]
        left
        rfl
      · rw [mem_setInsert]
        left
        rfl
      · intro n hn
        rw [mem_setInsert]
        right
        rw [mem_setInsert]
        right
        exact hn
    · intro hsent l
      rw [← hl1, if_pos hsent]
      exact mem_removeLink links change l
    · intro hsent
      rw [← hl1, if_neg hsent]
    · rw [← hrs, ← hn1, ← hl1]
      exact hb

/-- Witness for C2's amended theorem: adding link (2,4,7) to the running
example appends it, adds node 4, and rebuilds the routers. -/
def c2WitRouters : List Router :=
  (buildRouters [1, 2, 3, 4] (exLinks ++ [⟨2, 4, 7⟩])).getD []

theorem C2_witness :
    applyChange ⟨2, 4, 7⟩ [] exNodes exLinks =
      some (c2WitRouters, [1, 2, 3, 4], exLinks ++ [⟨2, 4, 7⟩]) ∧
    buildRouters [1, 2, 3, 4] (exLinks ++ [⟨2, 4, 7⟩]) = some c2WitRouters :=
  ⟨by decide,
    (C2_theorem ⟨2, 4, 7⟩ [] c2WitRouters exNodes [1, 2, 3, 4] exLinks
      (exLinks ++ [⟨2, 4, 7⟩]) (by decide)).2.2.2⟩

/-- Claim C2, counterexample.  Applying the change (1,2,5) to a topology
already holding a link (1,2,3) leaves TWO links for the pair 1–2 in the link
list — the claim's "its cost is updated ... leaving exactly one link for
that pair" is false: the code appends unconditionally. -/
theorem C2_counterexample :
    (applyChange ⟨1, 2, 5⟩ [] [1, 2] [⟨1, 2, 3⟩]).map (fun p => p.2.2) =
      some [⟨1, 2, 3⟩, ⟨1, 2, 5⟩] ∧
    ([⟨1, 2, 3⟩, ⟨1, 2, 5⟩] : List Link).countP (fun l => sameEndsB l ⟨1, 2, 5⟩) = 2 := by
  refine ⟨by decide, by decide⟩

/-! ### Claim C3 -/

/-- Claim C3, confirmed.  `applyChange` clears the router collection unread
and rebuilds it from the post-change node set and link list, so two runs
from equal pre-change node sets and link lists — but arbitrary, possibly
different, pre-change router collections — produce identical results: no
routing memory from before the change can influence the outcome. -/
theorem C3_theorem (change : Link) (r1 r2 : List Router) (n1 n2 : List Int)
    (l1 l2 : List Link) (hn : n1 = n2) (hl : l1 = l2) :
    applyChange change r1 n1 l1 = applyChange change r2 n2 l2 := by
  subst hn
  subst hl
  rfl

/-- Witness for C3: empty pre-change routers and the full converged
collection give the same applyChange result on the running example. -/
theorem C3_witness :
    applyChange ⟨1, 3, 2⟩ [] exNodes exLinks =
      applyChange ⟨1, 3, 2⟩ exConv exNodes exLinks :=
  C3_theorem ⟨1, 3, 2⟩ [] exConv exNodes exNodes exLinks exLinks rfl rfl

/-! ### Claim C4 -/

/-- Node set of the non-terminating C4 counterexample (contains id -2). -/
def c4Nodes : List Int := [-2, 0, 1]

/-- Links of the C4 counterexample; all costs are non-negative. -/
def c4Links : List Link := [⟨0, -2, 1⟩, ⟨-2, 1, 1⟩, ⟨0, 1, 2⟩]

/-- The seeded router collection of the C4 topology. -/
def c4Seed : List Router :=
  [⟨-2, [(-2, -2, 0), (0, 0, 1), (1, 1, 1)]⟩,
   ⟨0, [(-2, -2, 1), (0, 0, 0), (1, 1, 2)]⟩,
   ⟨1, [(-2, -2, 1), (0, 0, 2), (1, 1, 0)]⟩]

/-- The state reached after one sweep of the C4 topology; every further
sweep rewrites the same equal-cost routes through the tie-break branch
(neighbour id -2 is below the initial candidate hop -1), sets `updated`,
and changes nothing. -/
def c4Loop : List Router :=
  [⟨-2, [(-2, -2, 0), (0, 0, 1), (1, 1, 1)]⟩,
   ⟨0, [(-2, -2, 1), (0, 0, 0), (1, -2, 2)]⟩,
   ⟨1, [(-2, -2, 1), (0, -2, 2), (1, 1, 0)]⟩]

/-- Claim C4, counterexample.  On the topology `c4Links` — all link costs
non-negative, seeded exactly as initTopology does — `doBellmanFordAlg`
never terminates: node id -2 makes the equal-cost tie-break
`neighbourID < newNextHop` fire against the initial hop value -1 on every
sweep, so every sweep reports an update while changing nothing.  No fuel
bound ever reaches a zero-update sweep. -/
theorem C4_counterexample :
    buildRouters c4Nodes c4Links = some c4Seed ∧
    (∀ l ∈ c4Links, 0 ≤ l.pathCost) ∧
    ¬ ∃ f r1, doBellmanFordAlg f c4Seed c4Nodes c4Links = .ok r1 := by
  refine ⟨by decide, by decide, ?_⟩
  rintro ⟨f, r1, h⟩
  have h1 : sweepOnce c4Nodes c4Links c4Seed = some (c4Loop, true) := by decide
  have h2 : sweepOnce c4Nodes c4Links c4Loop = some (c4Loop, true) := by decide
  cases f with
  | zero => simp [doBellmanFordAlg] at h
  | succ f =>
    simp only [doBellmanFordAlg, h1] at h
    rw [bf_stuck c4Nodes c4Links c4Loop h2 f] at h
    exact absurd h (by simp)

/-- Claim C4, amended.  For every topology whose node ids are non-negative
and whose links have endpoints inside the node set and non-negative costs,
`doBellmanFordAlg` on the seeded router collection terminates: some finite
number of sweeps reaches a full sweep with zero updates (no iteration cap
is needed; the fuel here merely names that number). -/
theorem C4_theorem (nodes : List Int) (links : List Link) (s0 : List Router)
    (h0 : ∀ n ∈ nodes, 0 ≤ n)
    (h1 : ∀ l ∈ links, l.node1 ∈ nodes ∧ l.node2 ∈ nodes ∧ 0 ≤ l.pathCost)
    (hb : buildRouters nodes links = some s0) :
    ∃ f r1, doBellmanFordAlg f s0 nodes links = .ok r1 := by
  have hWF := buildRouters_WF nodes links s0 h0 h1 hb
  obtain ⟨r1, h⟩ := doBellmanFordAlg_ok_of_fuel nodes links
    (routersMeasure s0 + 1) s0 hWF (by omega)
  exact ⟨routersMeasure s0 + 1, r1, h⟩

/-- Witness for C4's amended theorem on the specification's running
example. -/
theorem C4_witness :
    buildRouters exNodes exLinks = some exSeed ∧
    (∃ f r1, doBellmanFordAlg f exSeed exNodes exLinks = .ok r1) :=
  ⟨by decide, C4_theorem exNodes exLinks exSeed (by decide) (by decide) (by decide)⟩

/-! ### Claim C5 -/

/-- The converged router collection of the self-loop topology {(1,1,5)}. -/
def c5Routers : List Router := [⟨1, [(1, 1, 5)]⟩]

/-- Claim C5, counterexample.  On the topology consisting of the single
self-loop link (1,1,5), the direct-route seeding overwrites router 1's
self entry with (1, 5); the convergence loop accepts this state at once
(the self-loop neighbour is filtered by `neighbourID == destinationID`),
so after `doBellmanFordAlg` completes the route of node 1 to itself has
cost 5, not 0. -/
theorem C5_counterexample :
    buildRouters [1] [⟨1, 1, 5⟩] = some c5Routers ∧
    doBellmanFordAlg 1 c5Routers [1] [⟨1, 1, 5⟩] = .ok c5Routers ∧
    (getRouterByID c5Routers 1).map (fun r => (r.getNextHop 1, r.getPathCost 1)) =
      some (1, 5) ∧
    (5 : Int) ≠ 0 := by
  refine ⟨by decide, by decide, by decide, by decide⟩

/-- Claim C5, amended.  For every topology whose node ids are non-negative
and whose links have endpoints in the node set, non-negative costs, and NO
SELF-LOOPS, after `doBellmanFordAlg` runs to completion on the router
collection seeded by the shared rebuild of initTopology/applyChange, every
router's entry for its own id is (next-hop = self, cost = 0). -/
theorem C5_theorem (nodes : List Int) (links : List Link) (s0 r1 : List Router)
    (f : Nat)
    (h0 : ∀ n ∈ nodes, 0 ≤ n)
    (h1 : ∀ l ∈ links, l.node1 ∈ nodes ∧ l.node2 ∈ nodes ∧ 0 ≤ l.pathCost)
    (h2 : ∀ l ∈ links, l.node1 ≠ l.node2)
    (hb : buildRouters nodes links = some s0)
    (hok : doBellmanFordAlg f s0 nodes links = .ok r1) :
    ∀ r ∈ r1, r.getNextHop r.ID = r.ID ∧ r.getPathCost r.ID = 0 := by
  have hWF := buildRouters_WF nodes links s0 h0 h1 hb
  have hS0 := buildRouters_SelfOK nodes links s0 h2 hb
  have hS1 := doBellmanFordAlg_selfOK nodes links f s0 r1 hWF hS0 hok
  intro r hr
  have hfind := hS1 r hr
  constructor
  · simp [Router.getNextHop, hfind]
  · simp [Router.getPathCost, hfind]

/-- Witness for C5's amended theorem on the running example. -/
theorem C5_witness :
    doBellmanFordAlg 2 exSeed exNodes exLinks = .ok exConv ∧
    ∀ r ∈ exConv, r.getNextHop r.ID = r.ID ∧ r.getPathCost r.ID = 0 :=
  ⟨by decide,
    C5_theorem exNodes exLinks exSeed exConv 2 (by decide) (by decide) (by decide)
      (by decide) (by decide)⟩

/-! ### Claim C6 -/

/-- Claim C6, confirmed.  Idempotence of convergence: if `doBellmanFordAlg`
has completed (its last full sweep made zero updates, yielding `r1`),
running it again on `r1` with the same node set and link list stops after
one zero-update sweep and returns `r1` unchanged — no routing-table entry
of any router changes. -/
theorem C6_theorem (nodes : List Int) (links : List Link) (r0 r1 : List Router)
    (f : Nat) (h : doBellmanFordAlg f r0 nodes links = .ok r1) :
    ∀ f2 : Nat, doBellmanFordAlg (f2 + 1) r1 nodes links = .ok r1 := by
  have hfix := doBellmanFordAlg_fixpoint nodes links f r0 r1 h
  intro f2
  simp [doBellmanFordAlg, hfix]

/-- Witness for C6 on the running example: reconverging the converged
collection returns it unchanged. -/
theorem C6_witness :
    doBellmanFordAlg 1 exConv exNodes exLinks = .ok exConv :=
  C6_theorem exNodes exLinks exSeed exConv 2 (by decide) 0

/-! ### Claim C7 -/

/-- Node set of the C7 tie-break demonstration. -/
def c7Nodes : List Int := [1, 2, 3, 4]

/-- Links of the C7 demonstration, ordered so that for router 1 and
destination 4 the neighbour 3 is scanned before the equally-priced
neighbour 2. -/
def c7Links : List Link := [⟨1, 3, 1⟩, ⟨1, 2, 1⟩, ⟨3, 4, 6⟩, ⟨2, 4, 6⟩]

/-- Seeded router collection of the C7 topology. -/
def c7Seed : List Router := (buildRouters c7Nodes c7Links).getD []

/-- Claim C7, confirmed.  Scanning router 1's links for destination 4 from
the seeded state: (1) after the first link the strict branch adopts
(hop 3, cost 7); (2) the full scan ends with hop 2 at the same cost 7 and
the table entry (2, 7) — the secondary lower-neighbour-id comparison fired
and replaced the next hop recorded for destination 4 during that scan; and
(3) the comparison is made against the candidate-hop variable before it is
ever assigned: with the variable still at its initial -1, the same
equal-cost candidate (neighbour 2, cost 7 against current best 7) does NOT
fire, because `2 < -1` is false. -/
theorem C7_theorem :
    (scanLinks 0 4 [⟨1, 3, 1⟩] (c7Seed, 9999, -1, false)).map
        (fun st => (st.2.1, st.2.2.1, st.2.2.2)) = some (7, 3, true) ∧
    (scanLinks 0 4 c7Links (c7Seed, 9999, -1, false)).map
        (fun st => (st.2.1, st.2.2.1, st.2.2.2)) = some (7, 2, true) ∧
    ((scanLinks 0 4 c7Links (c7Seed, 9999, -1, false)).bind
        (fun st => nth st.1 0)).map (fun r => (r.getNextHop 4, r.getPathCost 4)) =
      some (2, 7) ∧
    relaxLink 0 4 ⟨1, 2, 1⟩ (c7Seed, 7, -1, false) = some (c7Seed, 7, -1, false) := by
  refine ⟨by decide, by decide, by decide, by decide⟩

/-! ### Claim C8 -/

/-- Node set of the C8 scenario. -/
def c8Nodes : List Int := [1, 2, 3]

/-- Links of the C8 scenario: no link between 1 and 3. -/
def c8Links : List Link := [⟨1, 2, 1⟩, ⟨2, 3, 1⟩]

/-- Seeded router collection of the C8 scenario. -/
def c8Seed : List Router :=
  [⟨1, [(1, 1, 0), (2, 2, 1), (3, -1, 9999)]⟩,
   ⟨2, [(1, 1, 1), (2, 2, 0), (3, 3, 1)]⟩,
   ⟨3, [(1, -1, 9999), (2, 2, 1), (3, 3, 0)]⟩]

/-- Converged router collection of the C8 scenario. -/
def c8Conv : List Router :=
  [⟨1, [(1, 1, 0), (2, 2, 1), (3, 2, 2)]⟩,
   ⟨2, [(1, 1, 1), (2, 2, 0), (3, 3, 1)]⟩,
   ⟨3, [(1, 2, 2), (2, 2, 1), (3, 3, 0)]⟩]

/-- Claim C8, confirmed.  Applying a -999 change between two node ids that
are already in the (sorted) node set and share no link leaves the node set
and link list untouched and rebuilds exactly the original seeded
collection; reconverging with the same fuel therefore succeeds and yields
the same routing tables as before the change. -/
theorem C8_theorem (nodes : List Int) (links : List Link) (a b : Int)
    (s0 t r0 : List Router) (f : Nat)
    (hsort : List.Pairwise (· < ·) nodes)
    (ha : a ∈ nodes) (hb2 : b ∈ nodes)
    (hno : ∀ l ∈ links, ¬ sameEnds l ⟨a, b, -999⟩)
    (hbuild : buildRouters nodes links = some s0)
    (hconv : doBellmanFordAlg f s0 nodes links = .ok t) :
    applyChange ⟨a, b, -999⟩ r0 nodes links = some (s0, nodes, links) ∧
    doBellmanFordAlg f s0 nodes links = .ok t := by
  refine ⟨?_, hconv⟩
  simp only [applyChange]
  rw [if_pos trivial]
  rw [setInsert_eq_self a nodes hsort ha, setInsert_eq_self b nodes hsort hb2]
  rw [removeLink_no_match links ⟨a, b, -999⟩ hno]
  rw [hbuild]

/-- Witness for C8: the spec's scenario, removing the nonexistent link 1–3
from the converged two-link chain. -/
theorem C8_witness :
    applyChange ⟨1, 3, -999⟩ c8Conv c8Nodes c8Links = some (c8Seed, c8Nodes, c8Links) ∧
    doBellmanFordAlg 2 c8Seed c8Nodes c8Links = .ok c8Conv :=
  C8_theorem c8Nodes c8Links 1 3 c8Seed c8Conv c8Conv 2 (by decide) (by decide)
    (by decide) (by decide) (by decide) (by decide)

/-! ### Claim C9 -/

/-- Claim C9, confirmed.  `getRouterByID` returns (a reference to) a router
whose id equals the requested one whenever the collection holds such a
router — and any router it returns has the requested id and belongs to the
collection — while it throws (modelled by `none`) when no router in the
collection has that id, never fabricating a default router. -/
theorem C9_theorem (routers : List Router) (id : Int) :
    ((∃ r ∈ routers, r.ID = id) →
      ∃ r, getRouterByID routers id = some r ∧ r.ID = id ∧ r ∈ routers) ∧
    (∀ r, getRouterByID routers id = some r → r.ID = id ∧ r ∈ routers) ∧
    ((∀ r ∈ routers, r.ID ≠ id) → getRouterByID routers id = none) := by
  refine ⟨?_, ?_, ?_⟩
  · rintro ⟨r, hr, hid⟩
    exact getRouterByID_some_of_mem routers id (List.mem_map.mpr ⟨r, hr, hid⟩)
  · intro r hr
    exact getRouterByID_some_props routers id r hr
  · intro h
    apply getRouterByID_none_of_not_mem
    intro hmem
    obtain ⟨r, hr, hid⟩ := List.mem_map.mp hmem
    exact h r hr hid

/-- Witness for C9 on the converged running example: id 2 is found with
matching id, id 99 throws. -/
theorem C9_witness :
    (∃ r, getRouterByID exConv 2 = some r ∧ r.ID = 2 ∧ r ∈ exConv) ∧
    getRouterByID exConv 99 = none :=
  ⟨(C9_theorem exConv 2).1 ⟨⟨2, [(1, 1, 1), (2, 2, 0), (3, 3, 1)]⟩, by decide, rfl⟩,
    (C9_theorem exConv 99).2.2 (by decide)⟩

/-! ### Claim C10 -/

/-- Claim C10, amended.  For a message whose destination id is outside the
node set while its source id is a node, with table keys drawn from the node
set: the source's `getPathCost` returns -1 (not the 9999 infinite-cost
sentinel), so the unreachable-reporting branch is NOT taken; the hop walk
starts, `getNextHop` returns -1, and — PROVIDED -1 is not itself a node id
and the destination is not -1 — the `getRouterByID` lookup of -1 throws.
The message is never reported as unreachable. -/
theorem C10_theorem (routers : List Router) (msg : Message) (f : Nat)
    (hsrc : msg.sourceID ∈ routers.map (fun r => r.ID))
    (hdst : msg.destinationID ∉ routers.map (fun r => r.ID))
    (hkeys : ∀ r ∈ routers, ∀ e ∈ r.table, e.1 ∈ routers.map (fun r2 => r2.ID))
    (hneg : (-1 : Int) ∉ routers.map (fun r => r.ID))
    (hdne : msg.destinationID ≠ -1) :
    routeMessage routers msg (f + 2) = .exn := by
  obtain ⟨src, hfind, hsid, hsmem⟩ := getRouterByID_some_of_mem routers msg.sourceID hsrc
  have hdfind : ∀ r ∈ routers, mapFind msg.destinationID r.table = none := by
    intro r hr
    cases hf : mapFind msg.destinationID r.table with
    | none => rfl
    | some p =>
      exfalso
      obtain ⟨e, he, hfst⟩ := List.mem_map.mp (mapFind_some_key_mem _ _ _ hf)
      exact hdst (hfst ▸ hkeys r hr e he)
  have hcost : src.getPathCost msg.destinationID = -1 := by
    simp [Router.getPathCost, hdfind src hsmem]
  have hne1 : msg.sourceID ≠ msg.destinationID := fun e => hdst (e ▸ hsrc)
  have hnh : src.getNextHop msg.destinationID = -1 := by
    simp [Router.getNextHop, hdfind src hsmem]
  simp only [routeMessage, hfind]
  rw [if_neg (by rw [hcost]; decide)]
  rw [show f + 2 = (f + 1) + 1 from rfl, hopWalk_succ]
  rw [if_neg hne1, hfind]
  simp only
  rw [hnh, hopWalk_succ]
  rw [if_neg (fun e : (-1 : Int) = msg.destinationID => hdne e.symm)]
  rw [getRouterByID_none_of_not_mem routers (-1) hneg]

/-- Witness for C10's amended theorem: on the converged running example, a
message from node 1 to the unknown destination 99 makes `sendMessages`
throw instead of reporting unreachable. -/
theorem C10_witness : routeMessage exConv ⟨1, 99, "x"⟩ 2 = SendResult.exn :=
  C10_theorem exConv ⟨1, 99, "x"⟩ 0 (by decide) (by decide) (by decide) (by decide)
    (by decide)

/-- Node set of the C10 counterexample (contains the sentinel-colliding
node id -1). -/
def cANodes : List Int := [-1, 3]

/-- Single link of the C10 counterexample topology. -/
def cALinks : List Link := [⟨-1, 3, 1⟩]

/-- Converged router collection of the C10 counterexample topology. -/
def cARouters : List Router :=
  [⟨-1, [(-1, -1, 0), (3, 3, 1)]⟩, ⟨3, [(-1, -1, 1), (3, 3, 0)]⟩]

/-- Claim C10, counterexample.  When -1 is itself a node id, the claimed
throw never happens: for the message from node 3 to the unknown destination
7 the walk steps to `getNextHop`'s -1, finds the real router -1, reads
next hop -1 again and loops forever — `routeMessage` never returns the
exception outcome at any fuel (it is `fuelOut` for every bound), so the
claim's "the subsequent getRouterByID lookup throws" fails here. -/
theorem C10_counterexample :
    buildRouters cANodes cALinks = some cARouters ∧
    doBellmanFordAlg 1 cARouters cANodes cALinks = .ok cARouters ∧
    (3 : Int) ∈ cARouters.map (fun r => r.ID) ∧
    (7 : Int) ∉ cARouters.map (fun r => r.ID) ∧
    ∀ f, routeMessage cARouters ⟨3, 7, "x"⟩ f ≠ SendResult.exn := by
  refine ⟨by decide, by decide, by decide, by decide, ?_⟩
  have hwalk : ∀ f acc, hopWalk cARouters 7 f (-1) acc = .fuelOut := by
    intro f
    induction f with
    | zero => intro acc; rfl
    | succ f ih =>
      intro acc
      rw [hopWalk_succ]
      rw [if_neg (by decide)]
      rw [show getRouterByID cARouters (-1) =
        some ⟨-1, [(-1, -1, 0), (3, 3, 1)]⟩ from by decide]
      simp only
      rw [show (⟨-1, [(-1, -1, 0), (3, 3, 1)]⟩ : Router).getNextHop 7 = -1 from by decide]
      exact ih _
  intro f
  cases f with
  | zero => decide
  | succ f =>
    simp only [routeMessage]
    rw [show getRouterByID cARouters (3 : Int) =
      some ⟨3, [(-1, -1, 1), (3, 3, 0)]⟩ from by decide]
    simp only
    rw [if_neg (by decide)]
    rw [hopWalk_succ]
    rw [if_neg (by decide)]
    rw [show getRouterByID cARouters (3 : Int) =
      some ⟨3, [(-1, -1, 1), (3, 3, 0)]⟩ from by decide]
    simp only
    rw [show (⟨3, [(-1, -1, 1), (3, 3, 0)]⟩ : Router).getNextHop 7 = -1 from by decide]
    rw [hwalk f [3]]
    decide

end DV
